import Mathlib

/-!
Shallow embedding of the PDF-Merger repository.

The repository has three variants of the same application:
  * `api/merge-pdfs.ts`  — the serverless (Vercel) request handler;
  * the single-backend express server (`src/unnamed/part_000`);
  * a client-side variant with `orderGroupFiles` / `processFiles`.

Pure string/list logic (sanitizers, identifier extraction, grouping,
ordering, naming, collision resolution, the merge page concatenation and
the error flow of the two backend handlers) is translated directly from
the TypeScript source.  External PDF collaborators (`pdf-parse`,
`pdf-lib`) are modelled by per-file fields carrying the collaborator's
outcome: `parseText`/`loadPages` are `none` exactly when the collaborator
throws a `ParseError` for the file's bytes.
-/

namespace PDFMerger

/-! Character classes used by the JavaScript regexes of the source. -/

/-- Whitespace as matched by the JavaScript class `\s`, restricted to the
ASCII whitespace characters that occur in extracted PDF text. -/
def isWsChar (c : Char) : Bool :=
  c = ' ' || c = '\t' || c = '\n' || c = '\r' || c = '\x0b' || c = '\x0c'

/-- Characters removed by the sanitizing replace `[\\/:*?"<>|]` shared by
`safeName`, `safePdfFileName`, `safeFilenamePart` and `cleanupCandidateName`. -/
def isIllegalChar (c : Char) : Bool :=
  c = '\\' || c = '/' || c = ':' || c = '*' || c = '?' || c = '"' ||
  c = '<' || c = '>' || c = '|'

/-- Model of JavaScript `toLowerCase` on the Latin-1 range (the only
characters the source's filenames and patterns use). -/
def toLowerChar (c : Char) : Char :=
  if 'A' ≤ c ∧ c ≤ 'Z' then Char.ofNat (c.toNat + 32)
  else if 0xC0 ≤ c.toNat ∧ c.toNat ≤ 0xDE ∧ c.toNat ≠ 0xD7 then Char.ofNat (c.toNat + 32)
  else c

def lowerL (l : List Char) : List Char := l.map toLowerChar

/-! List-of-characters utilities mirroring the JavaScript string methods. -/

/-- Model of `.replace(/\s+/g, " ")`, structural form: the flag records
whether the previous character was inside a whitespace run. -/
def collapseWsAux (inRun : Bool) : List Char → List Char
  | [] => []
  | c :: rest =>
    if isWsChar c then
      if inRun then collapseWsAux true rest
      else ' ' :: collapseWsAux true rest
    else c :: collapseWsAux false rest

/-- Model of `.replace(/\s+/g, " ")`: every maximal run of whitespace
becomes a single space. -/
def collapseWs (l : List Char) : List Char := collapseWsAux false l

/-- Model of JavaScript `.trim()`. -/
def trimWs (l : List Char) : List Char :=
  ((l.dropWhile isWsChar).reverse.dropWhile isWsChar).reverse

/-- Shared cleaning pipeline `replace(/[\\/:*?"<>|]/g, "").replace(/\s+/g, " ").trim()`. -/
def safeNameL (l : List Char) : List Char :=
  trimWs (collapseWs (l.filter (fun c => !isIllegalChar c)))

/-- The serverless handler's `safeName`. -/
def safeName (s : String) : String := ⟨safeNameL s.data⟩

/-- The express server's `safePdfFileName`: same cleaning, but an empty
result is replaced by the literal `"Documento"`. -/
def safePdfFileName (name : String) : String :=
  let cleaned := safeName name
  if cleaned.length = 0 then "Documento" else cleaned

/-- The client-side `safeFilenamePart`: same cleaning followed by `.slice(0, 140)`. -/
def safeFilenamePart (s : String) : String := ⟨(safeNameL s.data).take 140⟩

/-- First index at which `sub` occurs in `l` (JavaScript `indexOf`),
accumulator form. -/
def indexOfSubAux (sub : List Char) : List Char → Nat → Option Nat
  | [], i => if sub = [] then some i else none
  | c :: rest, i =>
    if sub.isPrefixOf (c :: rest) then some i
    else indexOfSubAux sub rest (i + 1)

def indexOfSub (l sub : List Char) : Option Nat := indexOfSubAux sub l 0

/-- JavaScript `includes`. -/
def containsSub (l sub : List Char) : Bool := (indexOfSub l sub).isSome

/-! Identifier extraction: leftmost match of `(\d{2}-\d{4,})`. -/

/-- Attempt `\d{2}-\d{4,}` anchored at the head of `l` (the `{4,}` run is
greedy and nothing follows it, so it takes every digit). -/
def groupIdAt : List Char → Option (List Char)
  | a :: b :: '-' :: rest =>
    if a.isDigit ∧ b.isDigit then
      let ds := rest.takeWhile Char.isDigit
      if 4 ≤ ds.length then some (a :: b :: '-' :: ds) else none
    else none
  | _ => none

/-- Leftmost-match scan of the identifier pattern. -/
def findGroupIdL : List Char → Option (List Char)
  | [] => none
  | c :: rest =>
    match groupIdAt (c :: rest) with
    | some m => some m
    | none => findGroupIdL rest

/-- The `extractGroupIdFromFilename` helper (all three variants use the
same regex `(\d{2}-\d{4,})`). -/
def extractGroupId (name : String) : Option String :=
  (findGroupIdL name.data).map (fun l => ⟨l⟩)

/-- The express server's `isAllegato`: `/allegato/i.test(fileName)`. -/
def isAllegato (name : String) : Bool :=
  containsSub (lowerL name.data) "allegato".data

/-! The attachment-index regex `/allegato\s*(\d+)/i` of `orderGroupFiles`
and the conversion `Number(capture || 0)`. -/

/-- Numeric value of a run of decimal digit characters. -/
def digitsVal (ds : List Char) : Nat :=
  ds.foldl (fun acc c => acc * 10 + (c.toNat - '0'.toNat)) 0

/-- Leftmost-match scan of `/allegato\s*(\d+)/i`: at each position try the
case-insensitive literal, then greedy `\s*`, then a non-empty digit run. -/
def allegatoNumScan : List Char → Option Nat
  | [] => none
  | c :: rest =>
    if "allegato".data.isPrefixOf (lowerL (c :: rest)) then
      let after := (c :: rest).drop 8
      let ds := (after.dropWhile isWsChar).takeWhile Char.isDigit
      if ds ≠ [] then some (digitsVal ds) else allegatoNumScan rest
    else allegatoNumScan rest

/-- `Number((an.match(/allegato\s*(\d+)/i) || [])[1] || 0)`. -/
def allegatoNum (an : String) : Nat := (allegatoNumScan an.data).getD 0

/-! The Candidate Sanitizer `cleanupCandidateName` of the express server. -/

/-- Stop-word list of `cleanupCandidateName`, in source order. -/
def stopWords : List String :=
  ["fattura", "data", "del", "competenza", "codice", "p.iva", "partita",
   "email", "telefono", "indirizzo", "via", "pagina"]

/-- One iteration of the stop-word loop: find `" " ++ w` in the lowercased
string; when the index is positive, drop it and everything after, and trim. -/
def stopTrunc (s : List Char) (w : String) : List Char :=
  match indexOfSub (lowerL s) (' ' :: w.data) with
  | some i => if 0 < i then trimWs (s.take i) else s
  | none => s

/-- Characters of the rejection class `[\d\s/.-]` (a bare reference
number rather than a name). -/
def refLikeChar (c : Char) : Bool :=
  c.isDigit || isWsChar c || c = '/' || c = '.' || c = '-'

/-- The express server's `cleanupCandidateName`: clean, truncate at the
first stop word, reject candidates shorter than 4 characters or consisting
solely of digits/whitespace/slash/dot/hyphen. -/
def cleanupCandidateName (raw : String) : Option String :=
  let s0 := safeNameL raw.data
  let s1 := stopWords.foldl stopTrunc s0
  if s1.length < 4 then none
  else if s1 ≠ [] ∧ s1.all refLikeChar then none
  else some ⟨s1⟩

/-! The express server's `extractIntestatario` cascade.  The three regex
heuristics (`m1` same-line, `m2` next-line, `m3` titled name in the first
2500 characters) are abstracted as parameters returning the captured span,
so that the verified part is exactly the cascade control flow of lines
116-147: each captured span goes through `cleanupCandidateName`, a
rejection falls through to the next heuristic, an acceptance returns. -/

/-- Heuristic 3 step of the cascade: on a match, the sanitizer's verdict is
final (`return cand` on acceptance, `return null` at the end otherwise). -/
def extractStep3 (h3 : String → Option String) (text : String) : Option String :=
  match h3 text with
  | some sp => cleanupCandidateName sp
  | none => none

/-- Heuristic 2 step of the cascade. -/
def extractStep2 (h2 h3 : String → Option String) (text : String) : Option String :=
  match h2 text with
  | some sp =>
    match cleanupCandidateName sp with
    | some cand => some cand
    | none => extractStep3 h3 text
  | none => extractStep3 h3 text

/-- The cascade of `extractIntestatario` over normalized text. -/
def extractIntestatario (h1 h2 h3 : String → Option String) (text : String) :
    Option String :=
  match h1 text with
  | some sp =>
    match cleanupCandidateName sp with
    | some cand => some cand
    | none => extractStep2 h2 h3 text
  | none => extractStep2 h2 h3 text

/-- Specification-side cascade of section 4.5: the first heuristic whose
captured span the Candidate Sanitizer accepts wins; later heuristics are
not attempted. -/
def firstAcceptedCandidate (hs : List (String → Option String)) (text : String) :
    Option String :=
  hs.findSome? (fun h => (h text).bind cleanupCandidateName)

/-! The Merge Engine: `copyPages(doc, doc.getPageIndices())` followed by
`pages.forEach((p) => mergedDoc.addPage(p))` for each member document, on
an initially empty `PDFDocument.create()`. -/

/-- `copyPages` over all page indices keeps the document's pages in their
original intra-document order. -/
def copyAllPages (doc : List α) : List α := doc

/-- Page sequence of the merged output: append every member's pages, in
member order, to an initially empty document. -/
def mergeDocs (docs : List (List α)) : List α :=
  docs.foldl (fun merged doc => merged ++ copyAllPages doc) []

/-! JavaScript `Array.prototype.sort(cmp)` with the two comparators of the
source.  The sort is modelled as a comparison sort by `cmp a b ≤ 0`
(ECMAScript guarantees a stable sort consistent with the comparator). -/

/-- Insertion of one element into a sorted list. -/
def insertLe (le : α → α → Bool) (x : α) : List α → List α
  | [] => [x]
  | y :: ys => if le x y then x :: y :: ys else y :: insertLe le x ys

/-- Insertion sort by a boolean `le`. -/
def sortByLe (le : α → α → Bool) (l : List α) : List α :=
  l.foldr (insertLe le) []

/-- The JavaScript sort with an integer comparator. -/
def jsSortByCmp (cmp : α → α → Int) (l : List α) : List α :=
  sortByLe (fun a b => decide (cmp a b ≤ 0)) l

/-- Codepoint-wise lexicographic ordering of character lists; models
`localeCompare` on the lowercased filenames the source compares. -/
def lexOrdL : List Char → List Char → Ordering
  | [], [] => .eq
  | [], _ :: _ => .lt
  | _ :: _, [] => .gt
  | a :: as, b :: bs =>
    if a.toNat < b.toNat then .lt
    else if b.toNat < a.toNat then .gt
    else lexOrdL as bs

/-- Integer result of the modelled `localeCompare`. -/
def localeCmp (a b : List Char) : Int :=
  match lexOrdL a b with
  | .lt => -1
  | .eq => 0
  | .gt => 1

/-- The serverless handler's comparator (lines 74-80): any filename with
the `allegato` marker sorts after any filename without it, ties by
`localeCompare` of the lowercased names. -/
def handlerCmp (a b : String) : Int :=
  let av := lowerL a.data
  let bv := lowerL b.data
  if containsSub av "allegato".data ∧ ¬ containsSub bv "allegato".data then 1
  else if ¬ containsSub av "allegato".data ∧ containsSub bv "allegato".data then -1
  else localeCmp av bv

/-- The client-side `orderGroupFiles` comparator (lines 543-558): marker
first, then the explicit attachment index, then `localeCompare`. -/
def ogfCmp (a b : String) : Int :=
  let an := lowerL a.data
  let bn := lowerL b.data
  let aIsAll := containsSub an "allegato".data
  let bIsAll := containsSub bn "allegato".data
  if aIsAll ≠ bIsAll then (if aIsAll then 1 else -1)
  else
    let aNum := (allegatoNumScan an).getD 0
    let bNum := (allegatoNumScan bn).getD 0
    if aNum ≠ bNum then (aNum : Int) - (bNum : Int)
    else localeCmp an bn

/-- The client-side `orderGroupFiles`, on the filename component. -/
def orderGroupFilesNames (names : List String) : List String :=
  jsSortByCmp ogfCmp names

/-- The serverless handler's in-place group sort, on the filename component. -/
def serverSortNames (names : List String) : List String :=
  jsSortByCmp handlerCmp names

/-! Concrete matchers for the serverless handler's extraction regexes
(lines 86-93 of `api/merge-pdfs.ts`). -/

/-- Characters admitted by `[^\n\r]`. -/
def notNL (c : Char) : Bool := c ≠ '\n' && c ≠ '\r'

/-- Tail of `/Intestatario:\s*([^\n\r]+)/i` after the literal: greedy `\s*`
with the regex engine's backtracking so that the capture `[^\n\r]+` is
non-empty.  When non-whitespace follows the run, the greedy `\s*` stands and
the capture is the maximal newline-free run after it; when whitespace runs to
the end of the text, `\s*` backs off to the last non-newline character. -/
def m1CaptureAt (l : List Char) : Option (List Char) :=
  let rest := l.dropWhile isWsChar
  if rest ≠ [] then some (rest.takeWhile notNL)
  else
    match (l.takeWhile isWsChar).reverse.find? notNL with
    | some c => some [c]
    | none => none

/-- Leftmost-match scan for `/Intestatario:\s*([^\n\r]+)/i`; a failed
attempt resumes one character further, as the regex engine does. -/
def scanM1 : List Char → Option (List Char)
  | [] => none
  | c :: rest =>
    if "intestatario:".data.isPrefixOf (lowerL (c :: rest)) then
      match m1CaptureAt ((c :: rest).drop 13) with
      | some cap => some cap
      | none => scanM1 rest
    else scanM1 rest

/-- Capture of `text.match(/Intestatario:\s*([^\n\r]+)/i)?.[1]`. -/
def m1sv (text : String) : Option String := (scanM1 text.data).map (⟨·⟩)

/-- Word characters for the `\b` boundary: `[A-Za-z0-9_]`. -/
def isWordChar (c : Char) : Bool :=
  ('A' ≤ c ∧ c ≤ 'Z') || ('a' ≤ c ∧ c ≤ 'z') || c.isDigit || c = '_'

/-- Characters of the name class `[A-Za-zÀ-ÿ.'’\-]`. -/
def isNameTokenChar (c : Char) : Bool :=
  ('A' ≤ c ∧ c ≤ 'Z') || ('a' ≤ c ∧ c ≤ 'z') ||
  (0xC0 ≤ c.toNat ∧ c.toNat ≤ 0xFF) ||
  c = '.' || c = Char.ofNat 39 || c = Char.ofNat 0x2019 || c = '-'

/-- Tail of `/\bDr\s+[A-Za-zÀ-ÿ.'’\-]+\s+[A-Za-zÀ-ÿ.'’\-]+/` after the
literal `Dr`.  The whitespace and name classes are disjoint, so the greedy
runs are forced and no backtracking can arise. -/
def drTailAt (l : List Char) : Option (List Char) :=
  let ws1 := l.takeWhile isWsChar
  let r1 := l.dropWhile isWsChar
  if ws1 = [] then none else
  let w1 := r1.takeWhile isNameTokenChar
  let r2 := r1.dropWhile isNameTokenChar
  if w1 = [] then none else
  let ws2 := r2.takeWhile isWsChar
  let r3 := r2.dropWhile isWsChar
  if ws2 = [] then none else
  let w2 := r3.takeWhile isNameTokenChar
  if w2 = [] then none else
  some (ws1 ++ w1 ++ ws2 ++ w2)

/-- Leftmost-match scan for the case-sensitive `Dr` fallback pattern,
tracking the previous character for the `\b` boundary. -/
def scanDr (prev : Option Char) : List Char → Option (List Char)
  | 'D' :: 'r' :: rest =>
    if (prev.map isWordChar).getD false then scanDr (some 'D') ('r' :: rest)
    else
      match drTailAt rest with
      | some tail => some ('D' :: 'r' :: tail)
      | none => scanDr (some 'D') ('r' :: rest)
  | c :: rest => scanDr (some c) rest
  | [] => none

/-- Whole-match result of `text.match(/\bDr\s+[A-Za-zÀ-ÿ.'’\-]+\s+[A-Za-zÀ-ÿ.'’\-]+/)?.[0]`. -/
def mdrMatch (text : String) : Option String := (scanDr none text.data).map (⟨·⟩)

/-- Capture `[0-9]{2}\/[0-9]{5}` anchored at the head. -/
def captureFattura : List Char → Option (List Char)
  | a :: b :: '/' :: c :: d :: e :: f :: g :: _ =>
    if a.isDigit ∧ b.isDigit ∧ c.isDigit ∧ d.isDigit ∧ e.isDigit ∧ f.isDigit ∧ g.isDigit
    then some [a, b, '/', c, d, e, f, g] else none
  | _ => none

/-- Tail of `/Fattura\s*N[°º]?:\s*([0-9]{2}\/[0-9]{5})/i` after the literal
`Fattura`: `\s*`, an `N`, an optional degree sign, a colon, `\s*`, then the
capture.  All steps are forced (the classes are disjoint), so the greedy
scan is exact. -/
def fatturaTailAt (l : List Char) : Option (List Char) :=
  match l.dropWhile isWsChar with
  | c :: r2 =>
    if toLowerChar c = 'n' then
      let r3 := match r2 with
        | d :: r3x => if d = '°' || d = 'º' then r3x else r2
        | [] => r2
      match r3 with
      | ':' :: r4 => captureFattura (r4.dropWhile isWsChar)
      | _ => none
    else none
  | [] => none

/-- Leftmost-match scan for the invoice-number pattern. -/
def scanFattura : List Char → Option (List Char)
  | [] => none
  | c :: rest =>
    if "fattura".data.isPrefixOf (lowerL (c :: rest)) then
      match fatturaTailAt ((c :: rest).drop 7) with
      | some cap => some cap
      | none => scanFattura rest
    else scanFattura rest

/-- Capture of `text.match(/Fattura\s*N[°º]?:\s*([0-9]{2}\/[0-9]{5})/i)?.[1]`. -/
def fatturaMatch (text : String) : Option String := (scanFattura text.data).map (⟨·⟩)

/-- Model of the JavaScript `.replace(pat, rep)` for a single-character
pattern: only the first occurrence is replaced. -/
def replaceFirstChar : List Char → Char → Char → List Char
  | [], _, _ => []
  | c :: rest, a, b => if c = a then b :: rest else c :: replaceFirstChar rest a b

/-- The serverless `fattura` value (lines 86-88): the captured invoice
number, defaulting to the group identifier with its hyphen as a slash. -/
def svFattura (text : String) (groupId : String) : String :=
  match fatturaMatch text with
  | some f => f
  | none => ⟨replaceFirstChar groupId.data '-' '/'⟩

/-- The serverless `intestatario` value (lines 90-93): same-line capture,
else the `Dr` fallback, else the literal `"Documento"`. -/
def svIntestatario (text : String) : String :=
  match m1sv text with
  | some c => c
  | none =>
    match mdrMatch text with
    | some c => c
    | none => "Documento"

/-! The serverless request handler (`api/merge-pdfs.ts`, `handler`). -/

/-- An uploaded file together with the outcomes of the two fallible PDF
collaborators on its bytes: `parseText` is the text `pdf-parse` extracts
(after the source's `|| ""`), `none` when `pdf-parse` throws; `loadPages`
is the page list `PDFDocument.load` yields, `none` when loading throws. -/
structure PdfFile where
  filename : String
  parseText : Option String
  loadPages : Option (List Nat)
deriving DecidableEq

/-- A JavaScript object used as a dictionary, as an association list whose
keys enumerate in insertion order (the identifiers at play contain a
hyphen, so none is an array index).  `upsertAssoc upd gs id` updates the
entry of `id` through `upd`, which also receives `none` when the key is
new; a new key goes to the end. -/
def upsertAssoc (upd : Option β → β) : List (String × β) → String → List (String × β)
  | [], id => [(id, upd none)]
  | (k, v) :: rest, id =>
    if k = id then (k, upd (some v)) :: rest
    else (k, v) :: upsertAssoc upd rest id

/-- JavaScript property read `groups[id]`. -/
def lookupAssoc : List (String × β) → String → Option β
  | [], _ => none
  | (k, v) :: rest, i => if k = i then some v else lookupAssoc rest i

/-- `groups[m[1]] ??= []; groups[m[1]].push(f)`: append to the group of the
identifier, creating it on first encounter. -/
def addToGroup (groups : List (String × List PdfFile)) (id : String) (f : PdfFile) :
    List (String × List PdfFile) :=
  upsertAssoc (fun o => o.getD [] ++ [f]) groups id

/-- Grouping loop of the serverless handler (lines 59-65): files without an
extractable identifier are skipped. -/
def buildGroupsSv (files : List PdfFile) : List (String × List PdfFile) :=
  files.foldl (fun gs f =>
    match extractGroupId f.filename with
    | some id => addToGroup gs id f
    | none => gs) []

/-- The sorted member list of one group. -/
def sortSvFiles (gfs : List PdfFile) : List PdfFile :=
  jsSortByCmp (fun f g => handlerCmp f.filename g.filename) gfs

/-- The output filename of one group (lines 105-107). -/
def mkSvFilename (gid : String) (text : String) : String :=
  let fattura := svFattura text gid
  let intest := svIntestatario text
  gid ++ " - " ++ safeName ⟨replaceFirstChar fattura.data '/' '-'⟩ ++ " - " ++
    safeName intest ++ ".pdf"

/-- `PDFDocument.load` over the ordered members; `none` as soon as one
load throws. -/
def loadAllDocs : List PdfFile → Option (List (List Nat))
  | [] => some []
  | f :: rest =>
    match f.loadPages with
    | none => none
    | some pgs => (loadAllDocs rest).map (pgs :: ·)

/-- `zip.file(name, bytes)` of JSZip: re-adding an existing name replaces
that entry in place, otherwise the entry is appended. -/
def zipPut (zip : List (String × List Nat)) (name : String) (content : List Nat) :
    List (String × List Nat) :=
  if zip.any (·.1 = name) then
    zip.map (fun e => if e.1 = name then (name, content) else e)
  else zip ++ [(name, content)]

/-- Per-group loop of the serverless handler (lines 70-111) together with
the `!merged` check (lines 113-116).  A throwing collaborator reaches the
request-level `catch`, which answers 500 `"Errore durante il merge PDF"`. -/
def processGroupsSv :
    List (String × List PdfFile) → List (String × List Nat) → Nat →
    Except String (List (String × List Nat))
  | [], zip, merged =>
    if merged = 0 then .error "Nessuna coppia valida trovata" else .ok zip
  | (gid, gfs) :: rest, zip, merged =>
    if gfs.length < 2 then processGroupsSv rest zip merged
    else
      let ordered := sortSvFiles gfs
      match ordered.head? with
      | none => processGroupsSv rest zip merged
      | some first =>
        match first.parseText with
        | none => .error "Errore durante il merge PDF"
        | some text =>
          match loadAllDocs ordered with
          | none => .error "Errore durante il merge PDF"
          | some docs =>
            processGroupsSv rest
              (zipPut zip (mkSvFilename gid text) (mergeDocs docs)) (merged + 1)

/-- The serverless handler on a parsed multipart upload: the outputs are
the zip entries of the successful response. -/
def serverlessHandler (files : List PdfFile) :
    Except String (List (String × List Nat)) :=
  if files.length < 2 then .error "Servono almeno due PDF"
  else processGroupsSv (buildGroupsSv files) [] 0

/-! The express server (`src/unnamed/part_000`, `app.post("/api/merge-pdfs")`). -/

/-- An uploaded file of the express variant.  `intest` is the value
`extractIntestatario` returns for the file's bytes: that function parses the
PDF inside its own `try`/`catch` and never throws, so its outcome is a plain
optional name (the cascade logic behind it is embedded separately as
`extractIntestatario`). -/
structure ExFile where
  filename : String
  intest : Option String
  loadPages : Option (List Nat)
deriving DecidableEq

/-- The two role slots of one express group. -/
structure ExSlots where
  main : Option ExFile
  allegato : Option ExFile
deriving DecidableEq

/-- Lines 179-180: the file silently takes over its role slot. -/
def exUpdate (slots : ExSlots) (f : ExFile) : ExSlots :=
  if isAllegato f.filename then { slots with allegato := some f }
  else { slots with main := some f }

/-- `if (!groups[id]) groups[id] = {}` followed by the role-slot write:
update the group's record, starting from the empty record for a new key. -/
def addToGroupEx (groups : List (String × ExSlots)) (id : String) (f : ExFile) :
    List (String × ExSlots) :=
  upsertAssoc (fun o => exUpdate (o.getD ⟨none, none⟩) f) groups id

/-- Grouping loop of the express handler (lines 174-181). -/
def buildGroupsEx (files : List ExFile) : List (String × ExSlots) :=
  files.foldl (fun gs f =>
    match extractGroupId f.filename with
    | some id => addToGroupEx gs id f
    | none => gs) []

/-! Decimal rendering of the collision suffix, as the template literal
`${suffix}` renders a JavaScript number. -/

/-- Character of one decimal digit. -/
def digitChar : Nat → Char
  | 0 => '0' | 1 => '1' | 2 => '2' | 3 => '3' | 4 => '4'
  | 5 => '5' | 6 => '6' | 7 => '7' | 8 => '8' | _ => '9'

/-- Little-endian decimal digits, with explicit fuel so that the kernel can
evaluate the definition (division by ten is not a structural descent). -/
def natToDecAuxF : Nat → Nat → List Char
  | 0, _ => []
  | _ + 1, 0 => []
  | fuel + 1, n + 1 => digitChar ((n + 1) % 10) :: natToDecAuxF fuel ((n + 1) / 10)

/-- Little-endian decimal digits of a number (empty for zero); the number
itself is enough fuel. -/
def natToDecAux (n : Nat) : List Char := natToDecAuxF n n

/-- Decimal rendering of a natural number. -/
def natToDec (n : Nat) : String :=
  if n = 0 then "0" else ⟨(natToDecAux n).reverse⟩

/-- The suffixed candidate filename `${finalBase}_${suffix}.pdf`. -/
def suffixName (base : String) (k : Nat) : String :=
  base ++ "_" ++ natToDec k ++ ".pdf"

/-- `zip.getEntry(name)` as a boolean over the entries added so far. -/
def zipHasName (zip : List (String × List Nat)) (name : String) : Bool :=
  zip.any (·.1 = name)

/-- The `while (zip.getEntry(finalFileName))` loop (lines 209-213), with
explicit fuel: try `${base}_${k}.pdf`, `${base}_${k+1}.pdf`, ... and
return the first candidate absent from the zip. -/
def resolveLoop (zip : List (String × List Nat)) (base : String) :
    Nat → Nat → String
  | k, 0 => suffixName base k
  | k, fuel + 1 =>
    if zipHasName zip (suffixName base k) then resolveLoop zip base (k + 1) fuel
    else suffixName base k

/-- Collision resolution for one group's base name: `${base}.pdf` when it
is still free, otherwise the loop starting at suffix 2.  The fuel
`zip.length + 1` suffices: the candidates are pairwise distinct, so they
cannot all be present among `zip.length` entries. -/
def resolveName (zip : List (String × List Nat)) (base : String) : String :=
  if zipHasName zip (base ++ ".pdf") then resolveLoop zip base 2 (zip.length + 1)
  else base ++ ".pdf"

/-- Per-group loop of the express handler (lines 186-231) with the
`processedCount === 0` check (lines 233-235).  Incomplete groups are
skipped; extraction tries the attachment first, then the main document;
a throwing `PDFDocument.load` reaches the request-level `catch` (500). -/
def processGroupsEx :
    List (String × ExSlots) → List (String × List Nat) → Nat →
    Except String (List (String × List Nat))
  | [], zip, processed =>
    if processed = 0 then .error "Nessuna coppia valida trovata (manca main o allegato)."
    else .ok zip
  | (gid, slots) :: rest, zip, processed =>
    match slots.main, slots.allegato with
    | some mainF, some allegF =>
      let intest :=
        match allegF.intest with
        | some c => some c
        | none => mainF.intest
      let finalBase :=
        match intest with
        | some c => safePdfFileName c
        | none => gid
      let finalFileName := resolveName zip finalBase
      match mainF.loadPages, allegF.loadPages with
      | some mp, some ap =>
        processGroupsEx rest (zip ++ [(finalFileName, mergeDocs [mp, ap])])
          (processed + 1)
      | _, _ => .error "Errore interno durante l\x27unione dei file."
    | _, _ => processGroupsEx rest zip processed

/-- The express handler: 400 on an empty upload, then the group loop. -/
def expressHandler (files : List ExFile) :
    Except String (List (String × List Nat)) :=
  if files.length = 0 then .error "Nessun file caricato."
  else processGroupsEx (buildGroupsEx files) [] 0

/-! Naming of the client-side variant (`processFiles`, lines 661-667) and
the express base name (line 205). -/

/-- JavaScript `.filter(Boolean)` over string-or-null parts: `null` and the
empty string are falsy and dropped. -/
def jsTruthyFilter (l : List (Option String)) : List String :=
  l.filterMap (fun o =>
    match o with
    | some s => if s = "" then none else some s
    | none => none)

/-- JavaScript `Array.join(" - ")`. -/
def joinDashParts : List String → String
  | [] => ""
  | [p] => p
  | p :: q :: ps => p ++ " - " ++ joinDashParts (q :: ps)

/-- The client-side output filename: `[groupId, fatturaDash || null,
intestatario ? safeFilenamePart(intestatario) : null].filter(Boolean)`
joined by `" - "`, with `.pdf` appended.  `fatturaDash` renders the first
slash of the extracted invoice number as a hyphen. -/
def clientBaseFilename (groupId : String) (fatturaNo intest : Option String) :
    String :=
  let fatturaDash := fatturaNo.map (fun s => (⟨replaceFirstChar s.data '/' '-'⟩ : String))
  let parts := jsTruthyFilter
    [some groupId, fatturaDash, intest.map safeFilenamePart]
  joinDashParts parts ++ ".pdf"

/-- The express base name (line 205): the sanitized addressee name alone
when one was extracted, otherwise the bare group identifier. -/
def expressBaseName (intest : Option String) (id : String) : String :=
  match intest with
  | some c => safePdfFileName c
  | none => id

/-- A complete group whose processing must throw: the text parse of its
first ordered member fails, or some member's load fails. -/
def groupBadSv (g : String × List PdfFile) : Bool :=
  (match (sortSvFiles g.2).head? with
   | some f => f.parseText.isNone
   | none => false) || g.2.any (fun f => f.loadPages.isNone)

/-- Membership of an express file in the group of `id`. -/
def exMatches (id : String) (f : ExFile) : Bool :=
  decide (extractGroupId f.filename = some id)

/-- The last uploaded non-attachment file of the group (the survivor of the
silent role-slot replacement). -/
def lastMainFor (files : List ExFile) (id : String) : Option ExFile :=
  (files.filter (fun f => exMatches id f && !isAllegato f.filename)).getLast?

/-- The last uploaded attachment file of the group. -/
def lastAllegFor (files : List ExFile) (id : String) : Option ExFile :=
  (files.filter (fun f => exMatches id f && isAllegato f.filename)).getLast?

/-- Value of a little-endian decimal digit list (proof-side inverse of
`natToDecAuxF`). -/
def decValLE : List Char → Nat
  | [] => 0
  | c :: cs => (c.toNat - '0'.toNat) + 10 * decValLE cs

/-- The ordering the claim describes for the resolved member order:
documents without the marker precede documents with it, mains tie-break by
case-insensitive lexical order, attachments order by their explicit
attachment index (absent indices counting as zero, as the code converts
them) and tie-break lexically. -/
def claimedOrder (a b : String) : Bool :=
  let an := lowerL a.data
  let bn := lowerL b.data
  let aAll := containsSub an "allegato".data
  let bAll := containsSub bn "allegato".data
  let aNum := (allegatoNumScan an).getD 0
  let bNum := (allegatoNumScan bn).getD 0
  (!aAll && bAll) ||
  (aAll == bAll && (decide (aNum < bNum) ||
    (aNum == bNum && !(lexOrdL an bn == Ordering.gt))))

/-- The order the serverless comparator actually realizes: marker first,
then case-insensitive lexical order, ignoring attachment indices. -/
def serverMarkerLexOrder (a b : String) : Bool :=
  let an := lowerL a.data
  let bn := lowerL b.data
  let aAll := containsSub an "allegato".data
  let bAll := containsSub bn "allegato".data
  (!aAll && bAll) || (aAll == bAll && !(lexOrdL an bn == Ordering.gt))

/-- Membership of a file in the group of `id`. -/
def svMatches (id : String) (f : PdfFile) : Bool :=
  decide (extractGroupId f.filename = some id)

/-! Spot checks of the embedding on concrete inputs. -/

example : cleanupCandidateName "Mario Rossi" = some "Mario Rossi" := by decide

example : cleanupCandidateName "25/02050" = none := by decide

example : cleanupCandidateName "  Dr.  Mario   Rossi fattura 12" = some "Dr. Mario Rossi" := by decide

example : cleanupCandidateName "abc" = none := by decide

example : allegatoNum "25-02049_allegato10.pdf" = 10 := by decide

example : allegatoNum "25-02049_fattura.pdf" = 0 := by decide

example : extractGroupId "Proforma 25-02050_Allegato1.pdf" = some "25-02050" := by decide

example : extractGroupId "nothing.pdf" = none := by decide

example : isAllegato "25-02049_ALLEGATO2.pdf" = true := by decide

example : safePdfFileName "???" = "Documento" := by decide

example : safeName "a/b\\c:  d" = "abc d" := by decide

example : orderGroupFilesNames
    ["25-02049_Allegato10.pdf", "25-02049.pdf", "25-02049_Allegato2.pdf"] =
    ["25-02049.pdf", "25-02049_Allegato2.pdf", "25-02049_Allegato10.pdf"] := by decide

example : serverSortNames
    ["25-02049_Allegato10.pdf", "25-02049.pdf", "25-02049_Allegato2.pdf"] =
    ["25-02049.pdf", "25-02049_Allegato10.pdf", "25-02049_Allegato2.pdf"] := by decide

example : m1sv "Fattura\nIntestatario: Mario Rossi\nVia Roma 1" = some "Mario Rossi" := by decide

example : m1sv "Intestatario: ???" = some "???" := by decide

example : m1sv "intestatario senza colon" = none := by decide

example : mdrMatch "Egr. Dr Mario Rossi" = some "Dr Mario Rossi" := by decide

example : mdrMatch "Strada Drena 2" = none := by decide

example : mdrMatch "Dr  x" = none := by decide

example : fatturaMatch "Fattura N°: 25/02049 del 1/1" = some "25/02049" := by decide

example : fatturaMatch "Fattura N: 123/45678" = none := by decide

example : svFattura "niente" "25-02050" = "25/02050" := by decide

example : svIntestatario "nulla di utile" = "Documento" := by decide

example :
    serverlessHandler
      [⟨"25-02050.pdf", some "Intestatario: Mario Rossi", some [1, 2, 3]⟩,
       ⟨"25-02050_Allegato1.pdf", some "", some [4, 5]⟩] =
    .ok [("25-02050 - 25-02050 - Mario Rossi.pdf", [1, 2, 3, 4, 5])] := rfl

example :
    serverlessHandler [⟨"25-02050.pdf", some "x", some [1]⟩] =
    .error "Servono almeno due PDF" := rfl

example :
    expressHandler
      [⟨"11-1111.pdf", some "Mario Rossi", some [1]⟩,
       ⟨"11-1111_Allegato1.pdf", none, some [2]⟩,
       ⟨"22-2222.pdf", some "Mario Rossi", some [3]⟩,
       ⟨"22-2222_Allegato1.pdf", none, some [4]⟩] =
    .ok [("Mario Rossi.pdf", [1, 2]), ("Mario Rossi_2.pdf", [3, 4])] := rfl

example :
    expressHandler [⟨"11-1111.pdf", some "Mario Rossi", some [1]⟩] =
    .error "Nessuna coppia valida trovata (manca main o allegato)." := rfl

example : resolveName
    [("A.pdf", [1]), ("A_2.pdf", [2]), ("A_3.pdf", [3])] "A" = "A_4.pdf" := rfl

example : clientBaseFilename "25-02049" (some "25/02049") (some "Dr Mario Rossi") =
    "25-02049 - 25-02049 - Dr Mario Rossi.pdf" := by decide

example : clientBaseFilename "25-02049" none none = "25-02049.pdf" := by decide

example : clientBaseFilename "25-02049" none (some "???") = "25-02049.pdf" := by decide

/-! Helper lemmas about the `String` wrapper. -/

theorem stringMk_length (l : List Char) : (⟨l⟩ : String).length = l.length := rfl

theorem stringMk_eq_empty_iff (l : List Char) : (⟨l⟩ : String) = "" ↔ l = [] := by
  constructor
  · intro h
    exact congrArg String.data h
  · intro h
    rw [h]

/-! Association-list lemmas shared by the two grouping loops. -/

theorem lookupAssoc_upsert {β : Type} (upd : Option β → β)
    (gs : List (String × β)) (id i : String) :
    lookupAssoc (upsertAssoc upd gs id) i =
      if i = id then some (upd (lookupAssoc gs id)) else lookupAssoc gs i := by
  induction gs with
  | nil =>
    by_cases h : i = id
    · simp [upsertAssoc, lookupAssoc, h]
    · simp [upsertAssoc, lookupAssoc, h, Ne.symm h]
  | cons kv rest ih =>
    obtain ⟨k, v⟩ := kv
    by_cases hk : k = id
    · subst hk
      by_cases hi : i = k
      · subst hi
        simp [upsertAssoc, lookupAssoc]
      · simp [upsertAssoc, lookupAssoc, hi, Ne.symm hi]
    · by_cases hi : k = i
      · subst hi
        simp [upsertAssoc, lookupAssoc, hk, Ne.symm hk]
      · simp [upsertAssoc, lookupAssoc, hk, hi, ih]

theorem upsert_keys {β : Type} (upd : Option β → β)
    (gs : List (String × β)) (id : String) :
    (upsertAssoc upd gs id).map Prod.fst =
      if id ∈ gs.map Prod.fst then gs.map Prod.fst
      else gs.map Prod.fst ++ [id] := by
  induction gs with
  | nil => simp [upsertAssoc]
  | cons kv rest ih =>
    obtain ⟨k, v⟩ := kv
    by_cases hk : k = id
    · subst hk
      simp [upsertAssoc]
    · simp only [upsertAssoc, if_neg hk, List.map_cons, ih]
      by_cases hmem : id ∈ rest.map Prod.fst
      · simp [hmem, Ne.symm hk]
      · simp [hmem, Ne.symm hk]

theorem lookup_of_mem_nodupKeys {β : Type} (gs : List (String × β))
    (hnd : (gs.map Prod.fst).Nodup) (g : String × β) (hg : g ∈ gs) :
    lookupAssoc gs g.1 = some g.2 := by
  induction gs with
  | nil => cases hg
  | cons kv rest ih =>
    obtain ⟨k, v⟩ := kv
    rcases List.mem_cons.mp hg with h | h
    · subst h
      simp [lookupAssoc]
    · have hk : k ≠ g.1 := by
        intro hkg
        have : g.1 ∈ rest.map Prod.fst := List.mem_map_of_mem Prod.fst h
        rw [← hkg] at this
        exact (List.nodup_cons.mp hnd).1 this
      simp only [lookupAssoc, if_neg hk]
      exact ih (List.nodup_cons.mp hnd).2 h

/-! Lemmas about the modelled JavaScript sort. -/

theorem mem_insertLe {α : Type} (le : α → α → Bool) (x y : α) (l : List α) :
    y ∈ insertLe le x l ↔ y = x ∨ y ∈ l := by
  induction l with
  | nil => simp [insertLe]
  | cons z zs ih =>
    by_cases h : le x z
    · simp [insertLe, h, List.mem_cons]
    · simp [insertLe, h, List.mem_cons, ih]
      tauto

theorem mem_sortByLe {α : Type} (le : α → α → Bool) (y : α) (l : List α) :
    y ∈ sortByLe le l ↔ y ∈ l := by
  induction l with
  | nil => simp [sortByLe]
  | cons z zs ih =>
    show y ∈ insertLe le z (sortByLe le zs) ↔ _
    rw [mem_insertLe]
    simp [ih]

theorem length_insertLe {α : Type} (le : α → α → Bool) (x : α) (l : List α) :
    (insertLe le x l).length = l.length + 1 := by
  induction l with
  | nil => rfl
  | cons z zs ih =>
    by_cases h : le x z <;> simp [insertLe, h, ih]

theorem length_sortByLe {α : Type} (le : α → α → Bool) (l : List α) :
    (sortByLe le l).length = l.length := by
  induction l with
  | nil => rfl
  | cons z zs ih =>
    show (insertLe le z (sortByLe le zs)).length = _
    rw [length_insertLe, ih]
    rfl

theorem length_jsSortByCmp {α : Type} (cmp : α → α → Int) (l : List α) :
    (jsSortByCmp cmp l).length = l.length := length_sortByLe _ l

theorem mem_jsSortByCmp {α : Type} (cmp : α → α → Int) (y : α) (l : List α) :
    y ∈ jsSortByCmp cmp l ↔ y ∈ l := mem_sortByLe _ y l

/-! Lemmas about the modelled `PDFDocument.load` loop. -/

theorem loadAllDocs_isSome (l : List PdfFile)
    (h : ∀ f ∈ l, f.loadPages.isSome) : (loadAllDocs l).isSome := by
  induction l with
  | nil => rfl
  | cons f rest ih =>
    have hf := h f (List.mem_cons_self _ _)
    obtain ⟨pgs, hpgs⟩ := Option.isSome_iff_exists.mp hf
    have hr := ih (fun g hg => h g (List.mem_cons_of_mem _ hg))
    obtain ⟨ds, hds⟩ := Option.isSome_iff_exists.mp hr
    simp [loadAllDocs, hpgs, hds]

theorem loadAllDocs_eq_none (l : List PdfFile)
    (h : ∃ f ∈ l, f.loadPages = none) : loadAllDocs l = none := by
  induction l with
  | nil => simp at h
  | cons f rest ih =>
    obtain ⟨g, hg, hload⟩ := h
    rcases List.mem_cons.mp hg with rfl | hmem
    · simp [loadAllDocs, hload]
    · unfold loadAllDocs
      cases f.loadPages with
      | none => rfl
      | some pgs => simp [ih ⟨g, hmem, hload⟩]

/-! Characterization of the serverless grouping loop. -/

theorem buildGroupsSv_append (files : List PdfFile) (f : PdfFile) :
    buildGroupsSv (files ++ [f]) =
      (match extractGroupId f.filename with
       | some id => addToGroup (buildGroupsSv files) id f
       | none => buildGroupsSv files) := by
  simp [buildGroupsSv, List.foldl_append]

theorem lookup_buildGroupsSv (files : List PdfFile) (id : String) :
    lookupAssoc (buildGroupsSv files) id =
      (if files.filter (svMatches id) = [] then none
       else some (files.filter (svMatches id))) := by
  induction files using List.reverseRecOn with
  | nil => simp [buildGroupsSv, lookupAssoc]
  | append_singleton l f ih =>
    rw [buildGroupsSv_append]
    cases hid : extractGroupId f.filename with
    | none =>
      have hm : svMatches id f = false := by simp [svMatches, hid]
      rw [List.filter_append]
      simp [hm, ih]
    | some id2 =>
      simp only [addToGroup]
      rw [lookupAssoc_upsert]
      by_cases hii : id = id2
      · subst hii
        have hm : svMatches id f = true := by simp [svMatches, hid]
        rw [if_pos rfl, ih, List.filter_append]
        by_cases hnil : l.filter (svMatches id) = []
        · simp [hm, hnil]
        · simp [hm, hnil]
      · have hm : svMatches id f = false := by
          simp only [svMatches, hid, decide_eq_false_iff_not]
          intro hcon
          exact hii (Option.some.inj hcon).symm
        rw [if_neg hii, ih, List.filter_append]
        simp [hm]

theorem keysNodup_buildGroupsSv (files : List PdfFile) :
    ((buildGroupsSv files).map Prod.fst).Nodup := by
  induction files using List.reverseRecOn with
  | nil => simp [buildGroupsSv]
  | append_singleton l f ih =>
    rw [buildGroupsSv_append]
    cases hid : extractGroupId f.filename with
    | none => exact ih
    | some id =>
      simp only [addToGroup]
      rw [upsert_keys]
      by_cases hmem : id ∈ (buildGroupsSv l).map Prod.fst
      · simp [hmem, ih]
      · rw [if_neg hmem]
        refine List.Nodup.append ih (List.nodup_singleton id) ?_
        intro a ha hb
        rw [List.mem_singleton] at hb
        subst hb
        exact hmem ha

theorem mem_buildGroupsSv_facts (files : List PdfFile) (g : String × List PdfFile)
    (hg : g ∈ buildGroupsSv files) :
    g.2 = files.filter (svMatches g.1) ∧ g.2.length ≤ files.length := by
  have hl := lookup_of_mem_nodupKeys _ (keysNodup_buildGroupsSv files) g hg
  rw [lookup_buildGroupsSv] at hl
  split at hl
  · cases hl
  · have heq := Option.some.inj hl
    exact ⟨heq.symm, by rw [heq.symm] at *; exact List.length_filter_le _ _⟩

/-! Behaviour of the serverless per-group loop. -/

theorem processGroupsSv_skip (gs : List (String × List PdfFile))
    (zip : List (String × List Nat)) (n : Nat)
    (h : ∀ g ∈ gs, g.2.length < 2) :
    processGroupsSv gs zip n =
      if n = 0 then .error "Nessuna coppia valida trovata" else .ok zip := by
  induction gs generalizing zip n with
  | nil => rfl
  | cons g rest ih =>
    obtain ⟨gid, gfs⟩ := g
    have hlen := h _ (List.mem_cons_self _ _)
    simp only [processGroupsSv, if_pos hlen]
    exact ih _ _ (fun g hg => h g (List.mem_cons_of_mem _ hg))

theorem processGroupsSv_ok (gs : List (String × List PdfFile))
    (zip : List (String × List Nat)) (n : Nat)
    (hsafe : ∀ g ∈ gs, ∀ f ∈ g.2, f.parseText.isSome ∧ f.loadPages.isSome)
    (hpos : n ≠ 0 ∨ ∃ g ∈ gs, 2 ≤ g.2.length) :
    ∃ outs, processGroupsSv gs zip n = .ok outs := by
  induction gs generalizing zip n with
  | nil =>
    rcases hpos with hn | ⟨g, hg, _⟩
    · exact ⟨zip, by simp [processGroupsSv, hn]⟩
    · cases hg
  | cons g rest ih =>
    obtain ⟨gid, gfs⟩ := g
    by_cases hlen : gfs.length < 2
    · simp only [processGroupsSv, if_pos hlen]
      refine ih _ _ (fun g hg => hsafe g (List.mem_cons_of_mem _ hg)) ?_
      rcases hpos with hn | ⟨g2, hg2, hc2⟩
      · exact .inl hn
      · rcases List.mem_cons.mp hg2 with rfl | hmem
        · have h2 : (2 : Nat) ≤ gfs.length := hc2
          exact absurd h2 (by omega)
        · exact .inr ⟨g2, hmem, hc2⟩
    · have hne : sortSvFiles gfs ≠ [] := by
        intro hnil
        have hlsort := length_jsSortByCmp
          (fun f g => handlerCmp f.filename g.filename) gfs
        rw [show jsSortByCmp (fun f g => handlerCmp f.filename g.filename) gfs =
          sortSvFiles gfs from rfl, hnil] at hlsort
        simp at hlsort
        omega
      obtain ⟨first, rest2, hfr⟩ := List.exists_cons_of_ne_nil hne
      have hfmem : first ∈ gfs := by
        have : first ∈ sortSvFiles gfs := by
          rw [hfr]
          exact List.mem_cons_self _ _
        exact (mem_jsSortByCmp _ _ _).mp this
      obtain ⟨text, htext⟩ := Option.isSome_iff_exists.mp
        (hsafe _ (List.mem_cons_self _ _) first hfmem).1
      have hload : (loadAllDocs (sortSvFiles gfs)).isSome :=
        loadAllDocs_isSome _ (fun f hf =>
          (hsafe _ (List.mem_cons_self _ _) f ((mem_jsSortByCmp _ _ _).mp hf)).2)
      obtain ⟨docs, hdocs⟩ := Option.isSome_iff_exists.mp hload
      simp only [processGroupsSv, if_neg hlen, hfr, List.head?_cons, htext]
      rw [hfr] at hdocs
      simp only [hdocs]
      exact ih _ _ (fun g hg => hsafe g (List.mem_cons_of_mem _ hg)) (.inl (by omega))

theorem processGroupsSv_error (gs : List (String × List PdfFile))
    (zip : List (String × List Nat)) (n : Nat)
    (hbad : ∃ g ∈ gs, 2 ≤ g.2.length ∧ groupBadSv g = true) :
    ∃ e, processGroupsSv gs zip n = .error e := by
  induction gs generalizing zip n with
  | nil => simp at hbad
  | cons g rest ih =>
    obtain ⟨gid, gfs⟩ := g
    obtain ⟨gw, hgw, hgwlen, hgwbad⟩ := hbad
    by_cases hlen : gfs.length < 2
    · simp only [processGroupsSv, if_pos hlen]
      apply ih
      rcases List.mem_cons.mp hgw with rfl | hmem
      · have h2 : (2 : Nat) ≤ gfs.length := hgwlen
        exact absurd h2 (by omega)
      · exact ⟨gw, hmem, hgwlen, hgwbad⟩
    · have hne : sortSvFiles gfs ≠ [] := by
        intro hnil
        have hlsort := length_jsSortByCmp
          (fun f g => handlerCmp f.filename g.filename) gfs
        rw [show jsSortByCmp (fun f g => handlerCmp f.filename g.filename) gfs =
          sortSvFiles gfs from rfl, hnil] at hlsort
        simp at hlsort
        omega
      obtain ⟨first, rest2, hfr⟩ := List.exists_cons_of_ne_nil hne
      cases htext : first.parseText with
      | none =>
        refine ⟨"Errore durante il merge PDF", ?_⟩
        simp only [processGroupsSv, if_neg hlen, hfr, List.head?_cons, htext]
      | some text =>
        cases hdocs : loadAllDocs (sortSvFiles gfs) with
        | none =>
          refine ⟨"Errore durante il merge PDF", ?_⟩
          rw [hfr] at hdocs
          simp only [processGroupsSv, if_neg hlen, hfr, List.head?_cons, htext, hdocs]
        | some docs =>
          have hheadok : ¬ groupBadSv (gid, gfs) = true := by
            unfold groupBadSv
            simp only [sortSvFiles] at hfr
            simp only [sortSvFiles, hfr, List.head?_cons, htext, Option.isNone_some,
              Bool.or_eq_true, List.any_eq_true]
            rintro (hfalse | ⟨f, hf, hnone⟩)
            · simp at hfalse
            · have hnonedocs : loadAllDocs (sortSvFiles gfs) = none := by
                apply loadAllDocs_eq_none
                exact ⟨f, (mem_jsSortByCmp _ _ _).mpr hf, by simpa using hnone⟩
              rw [hnonedocs] at hdocs
              cases hdocs
          have hmem : gw ∈ rest := by
            rcases List.mem_cons.mp hgw with rfl | hmem
            · exact absurd hgwbad hheadok
            · exact hmem
          rw [hfr] at hdocs
          simp only [processGroupsSv, if_neg hlen, hfr, List.head?_cons, htext, hdocs]
          exact ih _ _ ⟨gw, hmem, hgwlen, hgwbad⟩

/-! Characterization of the express grouping loop. -/

theorem buildGroupsEx_append (files : List ExFile) (f : ExFile) :
    buildGroupsEx (files ++ [f]) =
      (match extractGroupId f.filename with
       | some id => addToGroupEx (buildGroupsEx files) id f
       | none => buildGroupsEx files) := by
  simp [buildGroupsEx, List.foldl_append]

theorem noMatch_lastNone (l : List ExFile) (id : String)
    (h : l.any (exMatches id) = false) :
    lastMainFor l id = none ∧ lastAllegFor l id = none := by
  rw [List.any_eq_false] at h
  have hfilter : ∀ q : ExFile → Bool,
      l.filter (fun f => exMatches id f && q f) = [] := by
    intro q
    rw [List.filter_eq_nil_iff]
    intro a ha
    simp only [Bool.and_eq_true, not_and]
    intro hm
    exact absurd hm (h a ha)
  constructor
  · simp only [lastMainFor]
    rw [hfilter]
    rfl
  · simp only [lastAllegFor]
    rw [hfilter]
    rfl

theorem lookup_buildGroupsEx (files : List ExFile) (id : String) :
    lookupAssoc (buildGroupsEx files) id =
      (if files.any (exMatches id) then
        some ⟨lastMainFor files id, lastAllegFor files id⟩
       else none) := by
  induction files using List.reverseRecOn with
  | nil => simp [buildGroupsEx, lookupAssoc]
  | append_singleton l f ih =>
    rw [buildGroupsEx_append]
    cases hid : extractGroupId f.filename with
    | none =>
      have hm : exMatches id f = false := by simp [exMatches, hid]
      rw [ih]
      simp [lastMainFor, lastAllegFor, List.filter_append, List.any_append, hm]
    | some id2 =>
      simp only [addToGroupEx]
      rw [lookupAssoc_upsert]
      by_cases hii : id = id2
      · subst hii
        rw [if_pos rfl, ih]
        have hm : exMatches id f = true := by simp [exMatches, hid]
        by_cases halleg : isAllegato f.filename
        · have hlm : lastMainFor (l ++ [f]) id = lastMainFor l id := by
            simp [lastMainFor, List.filter_append, hm, halleg]
          have hla : lastAllegFor (l ++ [f]) id = some f := by
            simp [lastAllegFor, List.filter_append, hm, halleg]
          by_cases hany : l.any (exMatches id)
          · simp [hany, List.any_append, hm, exUpdate, halleg, hlm, hla]
          · have hnone := noMatch_lastNone l id (by simpa using hany)
            simp [hany, List.any_append, hm, exUpdate, halleg, hlm, hla,
              hnone.1, hnone.2]
        · have hlm : lastMainFor (l ++ [f]) id = some f := by
            simp [lastMainFor, List.filter_append, hm, halleg]
          have hla : lastAllegFor (l ++ [f]) id = lastAllegFor l id := by
            simp [lastAllegFor, List.filter_append, hm, halleg]
          by_cases hany : l.any (exMatches id)
          · simp [hany, List.any_append, hm, exUpdate, halleg, hlm, hla]
          · have hnone := noMatch_lastNone l id (by simpa using hany)
            simp [hany, List.any_append, hm, exUpdate, halleg, hlm, hla,
              hnone.1, hnone.2]
      · have hm : exMatches id f = false := by
          simp only [exMatches, hid, decide_eq_false_iff_not]
          intro hcon
          exact hii (Option.some.inj hcon).symm
        rw [if_neg hii, ih]
        simp [lastMainFor, lastAllegFor, List.filter_append, List.any_append, hm]

theorem keysNodup_buildGroupsEx (files : List ExFile) :
    ((buildGroupsEx files).map Prod.fst).Nodup := by
  induction files using List.reverseRecOn with
  | nil => simp [buildGroupsEx]
  | append_singleton l f ih =>
    rw [buildGroupsEx_append]
    cases hid : extractGroupId f.filename with
    | none => exact ih
    | some id =>
      simp only [addToGroupEx]
      rw [upsert_keys]
      by_cases hmem : id ∈ (buildGroupsEx l).map Prod.fst
      · simp [hmem, ih]
      · rw [if_neg hmem]
        refine List.Nodup.append ih (List.nodup_singleton id) ?_
        intro a ha hb
        rw [List.mem_singleton] at hb
        subst hb
        exact hmem ha

/-! Decimal rendering: the suffix names are pairwise distinct. -/

theorem digitVal_digitChar (r : Nat) (h : r < 10) :
    (digitChar r).toNat - '0'.toNat = r := by
  interval_cases r <;> rfl

theorem decValLE_natToDecAuxF :
    ∀ fuel n, n ≤ fuel → decValLE (natToDecAuxF fuel n) = n := by
  intro fuel
  induction fuel with
  | zero =>
    intro n h
    interval_cases n
    rfl
  | succ fuel ih =>
    intro n h
    match n with
    | 0 => rfl
    | m + 1 =>
      show decValLE (digitChar ((m + 1) % 10) :: natToDecAuxF fuel ((m + 1) / 10)) = m + 1
      rw [decValLE, ih ((m + 1) / 10) (by omega),
        digitVal_digitChar _ (Nat.mod_lt _ (by omega))]
      omega

theorem decValLE_natToDecAux (n : Nat) : decValLE (natToDecAux n) = n :=
  decValLE_natToDecAuxF n n (Nat.le_refl n)

theorem natToDec_inj (m n : Nat) (h : natToDec m = natToDec n) : m = n := by
  have hdata := congrArg String.data h
  unfold natToDec at hdata
  by_cases hm : m = 0 <;> by_cases hn : n = 0
  · omega
  · exfalso
    rw [if_pos hm, if_neg hn] at hdata
    have haux : natToDecAux n = ['0'] := by
      have := congrArg List.reverse hdata
      simpa using this.symm
    have hv := decValLE_natToDecAux n
    rw [haux] at hv
    simp [decValLE] at hv
    omega
  · exfalso
    rw [if_neg hm, if_pos hn] at hdata
    have haux : natToDecAux m = ['0'] := by
      have := congrArg List.reverse hdata
      simpa using this
    have hv := decValLE_natToDecAux m
    rw [haux] at hv
    simp [decValLE] at hv
    omega
  · rw [if_neg hm, if_neg hn] at hdata
    have haux : natToDecAux m = natToDecAux n := by
      have := congrArg List.reverse hdata
      simpa using this
    have hv1 := decValLE_natToDecAux m
    have hv2 := decValLE_natToDecAux n
    rw [haux] at hv1
    omega

theorem suffixName_inj (base : String) (j k : Nat)
    (h : suffixName base j = suffixName base k) : j = k := by
  apply natToDec_inj
  have hdata := congrArg String.data h
  simp only [suffixName, String.data_append] at hdata
  have h1 := List.append_cancel_right hdata
  have h2 := List.append_cancel_left h1
  exact String.ext h2

/-! The collision-resolution loop returns the first free candidate. -/

theorem zipHasName_iff (zip : List (String × List Nat)) (name : String) :
    zipHasName zip name = true ↔ name ∈ zip.map Prod.fst := by
  simp [zipHasName, List.any_eq_true, List.mem_map]

theorem resolveLoop_free (zip : List (String × List Nat)) (base : String) :
    ∀ fuel k,
      ((List.range' k fuel).filter
        (fun j => zipHasName zip (suffixName base j))).length < fuel →
      ∃ m, resolveLoop zip base k fuel = suffixName base m ∧ k ≤ m ∧
        zipHasName zip (suffixName base m) = false ∧
        ∀ j, k ≤ j → j < m → zipHasName zip (suffixName base j) = true := by
  intro fuel
  induction fuel with
  | zero =>
    intro k h
    omega
  | succ fuel ih =>
    intro k h
    by_cases hk : zipHasName zip (suffixName base k) = true
    · have hcount : ((List.range' (k + 1) fuel).filter
          (fun j => zipHasName zip (suffixName base j))).length < fuel := by
        rw [List.range'_succ] at h
        simp only [List.filter_cons, hk, if_true, List.length_cons] at h
        omega
      obtain ⟨m, hm, hkm, hfree, hall⟩ := ih (k + 1) hcount
      refine ⟨m, ?_, by omega, hfree, ?_⟩
      · simp only [resolveLoop, hk, if_true]
        exact hm

      · intro j hkj hjm
        by_cases hjk : j = k
        · subst hjk
          exact hk
        · exact hall j (by omega) hjm
    · have hk2 : zipHasName zip (suffixName base k) = false := by simpa using hk
      refine ⟨k, ?_, Nat.le_refl k, hk2, ?_⟩
      · simp [resolveLoop, hk2]
      · intro j h1 h2
        exact absurd (Nat.lt_of_le_of_lt h1 h2) (Nat.lt_irrefl k)

theorem resolveCount_bound (zip : List (String × List Nat)) (base : String) :
    ((List.range' 2 (zip.length + 1)).filter
      (fun j => zipHasName zip (suffixName base j))).length < zip.length + 1 := by
  by_contra hge
  push_neg at hge
  set cands := (List.range' 2 (zip.length + 1)).filter
    (fun j => zipHasName zip (suffixName base j)) with hcands
  have hnodup : cands.Nodup := (List.nodup_range' 2 (zip.length + 1)).filter _
  have hmapnodup : (cands.map (suffixName base)).Nodup :=
    hnodup.map (fun a b hab => suffixName_inj base a b hab)
  have hsub : cands.map (suffixName base) ⊆ zip.map Prod.fst := by
    intro nm hnm
    rw [List.mem_map] at hnm
    obtain ⟨j, hj, rfl⟩ := hnm
    rw [hcands] at hj
    exact (zipHasName_iff zip _).mp (by simpa using List.of_mem_filter hj)
  have hle := (List.subperm_of_subset hmapnodup hsub).length_le
  rw [List.length_map, List.length_map] at hle
  omega

theorem resolveName_free (zip : List (String × List Nat)) (base : String) :
    zipHasName zip (resolveName zip base) = false := by
  unfold resolveName
  by_cases hbase : zipHasName zip (base ++ ".pdf") = true
  · rw [if_pos hbase]
    obtain ⟨m, hm, _, hfree, _⟩ :=
      resolveLoop_free zip base (zip.length + 1) 2 (resolveCount_bound zip base)
    rw [hm]
    exact hfree
  · rw [if_neg hbase]
    simpa using hbase

theorem resolveName_spec (zip : List (String × List Nat)) (base : String) :
    (zipHasName zip (base ++ ".pdf") = false →
      resolveName zip base = base ++ ".pdf") ∧
    (zipHasName zip (base ++ ".pdf") = true →
      ∃ k, 2 ≤ k ∧ resolveName zip base = suffixName base k ∧
        zipHasName zip (suffixName base k) = false ∧
        ∀ j, 2 ≤ j → j < k → zipHasName zip (suffixName base j) = true) := by
  constructor
  · intro h
    unfold resolveName
    rw [if_neg (by simp [h])]
  · intro h
    obtain ⟨m, hm, h2m, hfree, hall⟩ :=
      resolveLoop_free zip base (zip.length + 1) 2 (resolveCount_bound zip base)
    refine ⟨m, h2m, ?_, hfree, hall⟩
    unfold resolveName
    rw [if_pos h]
    exact hm

/-! Behaviour of the express per-group loop. -/

theorem processGroupsEx_nodup (gs : List (String × ExSlots)) :
    ∀ (zip : List (String × List Nat)) (n : Nat) (outs : List (String × List Nat)),
      processGroupsEx gs zip n = .ok outs →
      (zip.map Prod.fst).Nodup → (outs.map Prod.fst).Nodup := by
  induction gs with
  | nil =>
    intro zip n outs h hnd
    unfold processGroupsEx at h
    split at h
    · cases h
    · rw [← Except.ok.inj h]
      exact hnd
  | cons g rest ih =>
    intro zip n outs h hnd
    obtain ⟨gid, slots⟩ := g
    obtain ⟨om, oa⟩ := slots
    cases om with
    | none =>
      cases oa with
      | none => exact ih _ _ _ h hnd
      | some a => exact ih _ _ _ h hnd
    | some m =>
      cases oa with
      | none => exact ih _ _ _ h hnd
      | some a =>
        simp only [processGroupsEx] at h
        cases hmp : m.loadPages with
        | none =>
          rw [hmp] at h
          cases a.loadPages <;> cases h
        | some mp =>
          rw [hmp] at h
          cases hap : a.loadPages with
          | none =>
            rw [hap] at h
            cases h
          | some ap =>
            rw [hap] at h
            refine ih _ _ _ h ?_
            rw [List.map_append]
            refine List.Nodup.append hnd (List.nodup_singleton _) ?_
            intro x hx hx2
            simp only [List.map_cons, List.map_nil, List.mem_singleton] at hx2
            subst hx2
            rw [← zipHasName_iff] at hx
            rw [resolveName_free] at hx
            cases hx

theorem processGroupsEx_outs (gs : List (String × ExSlots)) :
    ∀ (zip : List (String × List Nat)) (n : Nat) (outs : List (String × List Nat)),
      processGroupsEx gs zip n = .ok outs →
      ∀ o ∈ outs, o ∈ zip ∨
        ∃ gid mainF allegF mp ap,
          (gid, ExSlots.mk (some mainF) (some allegF)) ∈ gs ∧
          mainF.loadPages = some mp ∧ allegF.loadPages = some ap ∧
          o.2 = mp ++ ap := by
  induction gs with
  | nil =>
    intro zip n outs h o ho
    left
    unfold processGroupsEx at h
    split at h
    · cases h
    · rw [Except.ok.inj h]
      exact ho
  | cons g rest ih =>
    intro zip n outs h o ho
    obtain ⟨gid, slots⟩ := g
    obtain ⟨om, oa⟩ := slots
    have weaken : (o ∈ zip ∨
        ∃ gid2 mainF allegF mp ap,
          (gid2, ExSlots.mk (some mainF) (some allegF)) ∈ rest ∧
          mainF.loadPages = some mp ∧ allegF.loadPages = some ap ∧
          o.2 = mp ++ ap) → o ∈ zip ∨
        ∃ gid2 mainF allegF mp ap,
          (gid2, ExSlots.mk (some mainF) (some allegF)) ∈ (gid, ⟨om, oa⟩) :: rest ∧
          mainF.loadPages = some mp ∧ allegF.loadPages = some ap ∧
          o.2 = mp ++ ap := by
      rintro (hz | ⟨g2, mF, aF, mp, ap, hmem, h1, h2, h3⟩)
      · exact .inl hz
      · exact .inr ⟨g2, mF, aF, mp, ap, List.mem_cons_of_mem _ hmem, h1, h2, h3⟩
    cases om with
    | none =>
      cases oa with
      | none => exact weaken (ih _ _ _ h o ho)
      | some a => exact weaken (ih _ _ _ h o ho)
    | some m =>
      cases oa with
      | none => exact weaken (ih _ _ _ h o ho)
      | some a =>
        simp only [processGroupsEx] at h
        cases hmp : m.loadPages with
        | none =>
          rw [hmp] at h
          cases a.loadPages <;> cases h
        | some mp =>
          rw [hmp] at h
          cases hap : a.loadPages with
          | none =>
            rw [hap] at h
            cases h
          | some ap =>
            rw [hap] at h
            have hres := ih _ _ _ h o ho
            rcases hres with hz | ⟨g2, mF, aF, mp2, ap2, hmem, h1, h2, h3⟩
            · rw [List.mem_append] at hz
              rcases hz with hz | hnew
              · exact .inl hz
              · rw [List.mem_singleton] at hnew
                subst hnew
                refine .inr ⟨gid, m, a, mp, ap, List.mem_cons_self _ _, hmp, hap, ?_⟩
                simp [mergeDocs, copyAllPages]
            · exact .inr ⟨g2, mF, aF, mp2, ap2, List.mem_cons_of_mem _ hmem, h1, h2, h3⟩

/-! Order theory of the modelled `localeCompare`. -/

theorem charToNat_inj (a b : Char) (h : a.toNat = b.toNat) : a = b :=
  Char.ext (UInt32.toNat.inj h)

theorem lexOrdL_self : ∀ l : List Char, lexOrdL l l = .eq := by
  intro l
  induction l with
  | nil => rfl
  | cons x xs ih => simp [lexOrdL, Nat.lt_irrefl, ih]

theorem lexOrdL_eq_iff : ∀ a b : List Char, lexOrdL a b = .eq ↔ a = b := by
  intro a
  induction a with
  | nil =>
    intro b
    cases b <;> simp [lexOrdL]
  | cons x xs ih =>
    intro b
    cases b with
    | nil => simp [lexOrdL]
    | cons y ys =>
      by_cases h1 : x.toNat < y.toNat
      · simp only [lexOrdL, if_pos h1]
        constructor
        · intro h
          cases h
        · intro h
          injection h with hxy hrest
          subst hxy
          exact absurd h1 (Nat.lt_irrefl _)
      · by_cases h2 : y.toNat < x.toNat
        · simp only [lexOrdL, if_neg h1, if_pos h2]
          constructor
          · intro h
            cases h
          · intro h
            injection h with hxy hrest
            subst hxy
            exact absurd h2 (Nat.lt_irrefl _)
        · have hxy : x = y := charToNat_inj x y (by omega)
          subst hxy
          simp [lexOrdL, Nat.lt_irrefl, ih]

theorem lexOrdL_swap : ∀ a b : List Char, lexOrdL b a = (lexOrdL a b).swap := by
  intro a
  induction a with
  | nil =>
    intro b
    cases b <;> rfl
  | cons x xs ih =>
    intro b
    cases b with
    | nil => rfl
    | cons y ys =>
      by_cases h1 : x.toNat < y.toNat
      · simp only [lexOrdL, if_pos h1, if_neg (by omega : ¬ y.toNat < x.toNat)]
        rfl
      · by_cases h2 : y.toNat < x.toNat
        · simp only [lexOrdL, if_neg h1, if_pos h2]
          rfl
        · simp only [lexOrdL, if_neg h1, if_neg h2, ih ys]

theorem lexOrdL_lt_trans :
    ∀ a b c : List Char, lexOrdL a b = .lt → lexOrdL b c = .lt → lexOrdL a c = .lt := by
  intro a
  induction a with
  | nil =>
    intro b c hab hbc
    cases c with
    | nil =>
      cases b with
      | nil => cases hab
      | cons y ys => cases hbc
    | cons z zs => rfl
  | cons x xs ih =>
    intro b c hab hbc
    cases b with
    | nil => cases hab
    | cons y ys =>
      cases c with
      | nil => cases hbc
      | cons z zs =>
        simp only [lexOrdL] at hab hbc ⊢
        by_cases hxy : x.toNat < y.toNat
        · by_cases hyz : y.toNat < z.toNat
          · rw [if_pos (by omega : x.toNat < z.toNat)]
          · by_cases hzy : z.toNat < y.toNat
            · rw [if_neg hyz, if_pos hzy] at hbc
              cases hbc
            · have : y = z := charToNat_inj y z (by omega)
              subst this
              rw [if_pos hxy]
        · by_cases hyx : y.toNat < x.toNat
          · rw [if_neg hxy, if_pos hyx] at hab
            cases hab
          · have hxyeq : x = y := charToNat_inj x y (by omega)
            subst hxyeq
            rw [if_neg (Nat.lt_irrefl _), if_neg (Nat.lt_irrefl _)] at hab
            by_cases hxz : x.toNat < z.toNat
            · rw [if_pos hxz]
            · by_cases hzx : z.toNat < x.toNat
              · rw [if_neg hxz, if_pos hzx] at hbc
                cases hbc
              · have hxzeq : x = z := charToNat_inj x z (by omega)
                subst hxzeq
                rw [if_neg (Nat.lt_irrefl _), if_neg (Nat.lt_irrefl _)] at hbc
                rw [if_neg (Nat.lt_irrefl _), if_neg (Nat.lt_irrefl _)]
                exact ih ys zs hab hbc

theorem lexOrdL_le_trans (a b c : List Char)
    (h1 : lexOrdL a b ≠ .gt) (h2 : lexOrdL b c ≠ .gt) : lexOrdL a c ≠ .gt := by
  cases hab : lexOrdL a b with
  | gt => exact absurd hab h1
  | eq =>
    rw [lexOrdL_eq_iff] at hab
    subst hab
    exact h2
  | lt =>
    cases hbc : lexOrdL b c with
    | gt => exact absurd hbc h2
    | eq =>
      rw [lexOrdL_eq_iff] at hbc
      subst hbc
      rw [hab]
      simp
    | lt =>
      rw [lexOrdL_lt_trans a b c hab hbc]
      simp

theorem lexOrdL_le_total (a b : List Char) :
    lexOrdL a b ≠ .gt ∨ lexOrdL b a ≠ .gt := by
  cases hab : lexOrdL a b with
  | lt => exact .inl (by simp)
  | eq => exact .inl (by simp)
  | gt =>
    right
    rw [lexOrdL_swap, hab]
    simp [Ordering.swap]

theorem localeCmp_le_iff (a b : List Char) :
    localeCmp a b ≤ 0 ↔ lexOrdL a b ≠ .gt := by
  unfold localeCmp
  cases lexOrdL a b <;> simp

theorem handlerCmp_le_iff (a b : String) :
    handlerCmp a b ≤ 0 ↔
      ((containsSub (lowerL a.data) "allegato".data = false ∧
        containsSub (lowerL b.data) "allegato".data = true) ∨
       (containsSub (lowerL a.data) "allegato".data =
          containsSub (lowerL b.data) "allegato".data ∧
        lexOrdL (lowerL a.data) (lowerL b.data) ≠ .gt)) := by
  unfold handlerCmp
  by_cases ha : containsSub (lowerL a.data) "allegato".data <;>
    by_cases hb : containsSub (lowerL b.data) "allegato".data <;>
      simp only [ha, hb, if_pos, if_neg, localeCmp_le_iff] <;>
        simp [localeCmp_le_iff]

theorem ogfCmp_le_iff (a b : String) :
    ogfCmp a b ≤ 0 ↔
      ((containsSub (lowerL a.data) "allegato".data = false ∧
        containsSub (lowerL b.data) "allegato".data = true) ∨
       (containsSub (lowerL a.data) "allegato".data =
          containsSub (lowerL b.data) "allegato".data ∧
        ((allegatoNumScan (lowerL a.data)).getD 0 <
            (allegatoNumScan (lowerL b.data)).getD 0 ∨
         ((allegatoNumScan (lowerL a.data)).getD 0 =
            (allegatoNumScan (lowerL b.data)).getD 0 ∧
          lexOrdL (lowerL a.data) (lowerL b.data) ≠ .gt)))) := by
  unfold ogfCmp
  by_cases ha : containsSub (lowerL a.data) "allegato".data <;>
    by_cases hb : containsSub (lowerL b.data) "allegato".data <;>
      by_cases hn : (allegatoNumScan (lowerL a.data)).getD 0 =
        (allegatoNumScan (lowerL b.data)).getD 0 <;>
        simp [ha, hb, hn, localeCmp_le_iff] <;> omega

theorem handlerLe_trans (a b c : String)
    (h1 : handlerCmp a b ≤ 0) (h2 : handlerCmp b c ≤ 0) : handlerCmp a c ≤ 0 := by
  rw [handlerCmp_le_iff] at h1 h2 ⊢
  rcases h1 with ⟨ha, hb⟩ | ⟨hab, hlex⟩ <;> rcases h2 with ⟨hb2, hc⟩ | ⟨hbc, hlex2⟩
  · rw [hb] at hb2
    cases hb2
  · exact .inl ⟨ha, hbc ▸ hb⟩
  · exact .inl ⟨hab.trans hb2, hc⟩
  · exact .inr ⟨hab.trans hbc, lexOrdL_le_trans _ _ _ hlex hlex2⟩

theorem handlerLe_total (a b : String) :
    handlerCmp a b ≤ 0 ∨ handlerCmp b a ≤ 0 := by
  rw [handlerCmp_le_iff, handlerCmp_le_iff]
  by_cases ha : containsSub (lowerL a.data) "allegato".data <;>
    by_cases hb : containsSub (lowerL b.data) "allegato".data
  · rcases lexOrdL_le_total (lowerL a.data) (lowerL b.data) with h | h
    · exact .inl (.inr ⟨by rw [ha, hb], h⟩)
    · exact .inr (.inr ⟨by rw [ha, hb], h⟩)
  · exact .inr (.inl ⟨by simpa using hb, by simpa using ha⟩)
  · exact .inl (.inl ⟨by simpa using ha, by simpa using hb⟩)
  · rcases lexOrdL_le_total (lowerL a.data) (lowerL b.data) with h | h
    · exact .inl (.inr ⟨by simp [ha, hb], h⟩)
    · exact .inr (.inr ⟨by simp [ha, hb], h⟩)

theorem ogfLe_trans (a b c : String)
    (h1 : ogfCmp a b ≤ 0) (h2 : ogfCmp b c ≤ 0) : ogfCmp a c ≤ 0 := by
  rw [ogfCmp_le_iff] at h1 h2 ⊢
  rcases h1 with ⟨ha, hb⟩ | ⟨hab, hnum1⟩ <;> rcases h2 with ⟨hb2, hc⟩ | ⟨hbc, hnum2⟩
  · rw [hb] at hb2
    cases hb2
  · exact .inl ⟨ha, hbc ▸ hb⟩
  · exact .inl ⟨hab.trans hb2, hc⟩
  · refine .inr ⟨hab.trans hbc, ?_⟩
    rcases hnum1 with hlt1 | ⟨heq1, hlex1⟩ <;> rcases hnum2 with hlt2 | ⟨heq2, hlex2⟩
    · exact .inl (by omega)
    · exact .inl (by omega)
    · exact .inl (by omega)
    · exact .inr ⟨by omega, lexOrdL_le_trans _ _ _ hlex1 hlex2⟩

theorem ogfNumLex_total (a b : String) :
    ((allegatoNumScan (lowerL a.data)).getD 0 <
        (allegatoNumScan (lowerL b.data)).getD 0 ∨
     ((allegatoNumScan (lowerL a.data)).getD 0 =
        (allegatoNumScan (lowerL b.data)).getD 0 ∧
      lexOrdL (lowerL a.data) (lowerL b.data) ≠ .gt)) ∨
    ((allegatoNumScan (lowerL b.data)).getD 0 <
        (allegatoNumScan (lowerL a.data)).getD 0 ∨
     ((allegatoNumScan (lowerL b.data)).getD 0 =
        (allegatoNumScan (lowerL a.data)).getD 0 ∧
      lexOrdL (lowerL b.data) (lowerL a.data) ≠ .gt)) := by
  by_cases hn : (allegatoNumScan (lowerL a.data)).getD 0 =
      (allegatoNumScan (lowerL b.data)).getD 0
  · rcases lexOrdL_le_total (lowerL a.data) (lowerL b.data) with h | h
    · exact .inl (.inr ⟨hn, h⟩)
    · exact .inr (.inr ⟨hn.symm, h⟩)
  · rcases Nat.lt_or_ge ((allegatoNumScan (lowerL a.data)).getD 0)
      ((allegatoNumScan (lowerL b.data)).getD 0) with h | h
    · exact .inl (.inl h)
    · exact .inr (.inl (by omega))

theorem ogfLe_total (a b : String) :
    ogfCmp a b ≤ 0 ∨ ogfCmp b a ≤ 0 := by
  rw [ogfCmp_le_iff, ogfCmp_le_iff]
  by_cases ha : containsSub (lowerL a.data) "allegato".data <;>
    by_cases hb : containsSub (lowerL b.data) "allegato".data
  · rcases ogfNumLex_total a b with h | h
    · exact .inl (.inr ⟨by rw [ha, hb], h⟩)
    · exact .inr (.inr ⟨by rw [hb, ha], h⟩)
  · exact .inr (.inl ⟨by simpa using hb, by simpa using ha⟩)
  · exact .inl (.inl ⟨by simpa using ha, by simpa using hb⟩)
  · rcases ogfNumLex_total a b with h | h
    · exact .inl (.inr ⟨by simp [ha, hb], h⟩)
    · exact .inr (.inr ⟨by simp [ha, hb], h⟩)

/-! Sortedness of the modelled JavaScript sort under a consistent comparator. -/

theorem pairwise_insertLe {α : Type} (le : α → α → Bool)
    (htrans : ∀ a b c, le a b = true → le b c = true → le a c = true)
    (htotal : ∀ a b, le a b = true ∨ le b a = true)
    (x : α) (l : List α) (h : List.Pairwise (fun a b => le a b = true) l) :
    List.Pairwise (fun a b => le a b = true) (insertLe le x l) := by
  induction l with
  | nil => simp [insertLe]
  | cons y ys ih =>
    by_cases hxy : le x y = true
    · rw [insertLe, if_pos hxy]
      refine List.Pairwise.cons ?_ h
      intro z hz
      rcases List.mem_cons.mp hz with rfl | hz2
      · exact hxy
      · exact htrans x y z hxy (List.rel_of_pairwise_cons h hz2)
    · rw [insertLe, if_neg hxy]
      have hyx : le y x = true := (htotal x y).resolve_left hxy
      refine List.Pairwise.cons ?_ (ih (List.Pairwise.of_cons h))
      intro z hz
      rw [mem_insertLe] at hz
      rcases hz with rfl | hz2
      · exact hyx
      · exact List.rel_of_pairwise_cons h hz2

theorem pairwise_sortByLe {α : Type} (le : α → α → Bool)
    (htrans : ∀ a b c, le a b = true → le b c = true → le a c = true)
    (htotal : ∀ a b, le a b = true ∨ le b a = true) (l : List α) :
    List.Pairwise (fun a b => le a b = true) (sortByLe le l) := by
  induction l with
  | nil => exact List.Pairwise.nil
  | cons z zs ih =>
    exact pairwise_insertLe le htrans htotal z (sortByLe le zs) ih

theorem pairwise_jsSortByCmp {α : Type} (cmp : α → α → Int)
    (htrans : ∀ a b c, cmp a b ≤ 0 → cmp b c ≤ 0 → cmp a c ≤ 0)
    (htotal : ∀ a b, cmp a b ≤ 0 ∨ cmp b a ≤ 0) (l : List α) :
    List.Pairwise (fun a b => cmp a b ≤ 0) (jsSortByCmp cmp l) := by
  have hp := pairwise_sortByLe (fun a b => decide (cmp a b ≤ 0))
    (fun a b c h1 h2 => by
      simp only [decide_eq_true_eq] at h1 h2 ⊢
      exact htrans a b c h1 h2)
    (fun a b => by
      simp only [decide_eq_true_eq]
      exact htotal a b) l
  refine List.Pairwise.imp ?_ hp
  intro a b hab
  simpa using hab

theorem ordBeqGt_false (o : Ordering) (h : o ≠ .gt) : (o == Ordering.gt) = false := by
  cases o with
  | lt => rfl
  | eq => rfl
  | gt => exact absurd rfl h

/-! The two comparators realize the claimed orders. -/

theorem ogfLe_claimedOrder (a b : String) (h : ogfCmp a b ≤ 0) :
    claimedOrder a b = true := by
  rw [ogfCmp_le_iff] at h
  unfold claimedOrder
  simp only [Bool.or_eq_true, Bool.and_eq_true, Bool.not_eq_true', beq_iff_eq,
    decide_eq_true_eq]
  rcases h with ⟨ha, hb⟩ | ⟨hab, hrest⟩
  · exact .inl ⟨ha, hb⟩
  · right
    refine ⟨hab, ?_⟩
    rcases hrest with hlt | ⟨heq, hlex⟩
    · exact .inl hlt
    · exact .inr ⟨heq, ordBeqGt_false _ hlex⟩

theorem handlerLe_markerLexOrder (a b : String) (h : handlerCmp a b ≤ 0) :
    serverMarkerLexOrder a b = true := by
  rw [handlerCmp_le_iff] at h
  unfold serverMarkerLexOrder
  simp only [Bool.or_eq_true, Bool.and_eq_true, Bool.not_eq_true', beq_iff_eq]
  rcases h with ⟨ha, hb⟩ | ⟨hab, hlex⟩
  · exact .inl ⟨ha, hb⟩
  · exact .inr ⟨hab, ordBeqGt_false _ hlex⟩

/-! C4 — the Metadata Extractor cascade returns the first accepted heuristic. -/

/-- Claim C4: for every normalized text and every cascade of three
heuristic matchers, `extractIntestatario` returns the candidate of the
first heuristic whose captured span the Candidate Sanitizer accepts; once
one is accepted no later heuristic is consulted, and a sanitizer rejection
continues the cascade instead of aborting it. -/
theorem claim_C4 (h1 h2 h3 : String → Option String) (text : String) :
    extractIntestatario h1 h2 h3 text = firstAcceptedCandidate [h1, h2, h3] text := by
  cases hm1 : h1 text with
  | none =>
    cases hm2 : h2 text with
    | none =>
      cases hm3 : h3 text with
      | none =>
        simp [extractIntestatario, extractStep2, extractStep3,
          firstAcceptedCandidate, hm1, hm2, hm3]
      | some sp3 =>
        cases hc3 : cleanupCandidateName sp3 <;>
          simp [extractIntestatario, extractStep2, extractStep3,
            firstAcceptedCandidate, hm1, hm2, hm3, hc3]
    | some sp2 =>
      cases hc2 : cleanupCandidateName sp2 with
      | none =>
        cases hm3 : h3 text with
        | none =>
          simp [extractIntestatario, extractStep2, extractStep3,
            firstAcceptedCandidate, hm1, hm2, hm3, hc2]
        | some sp3 =>
          cases hc3 : cleanupCandidateName sp3 <;>
            simp [extractIntestatario, extractStep2, extractStep3,
              firstAcceptedCandidate, hm1, hm2, hm3, hc2, hc3]
      | some c2 =>
        simp [extractIntestatario, extractStep2, extractStep3,
          firstAcceptedCandidate, hm1, hm2, hc2]
  | some sp1 =>
    cases hc1 : cleanupCandidateName sp1 with
    | none =>
      cases hm2 : h2 text with
      | none =>
        cases hm3 : h3 text with
        | none =>
          simp [extractIntestatario, extractStep2, extractStep3,
            firstAcceptedCandidate, hm1, hm2, hm3, hc1]
        | some sp3 =>
          cases hc3 : cleanupCandidateName sp3 <;>
            simp [extractIntestatario, extractStep2, extractStep3,
              firstAcceptedCandidate, hm1, hm2, hm3, hc1, hc3]
      | some sp2 =>
        cases hc2 : cleanupCandidateName sp2 with
        | none =>
          cases hm3 : h3 text with
          | none =>
            simp [extractIntestatario, extractStep2, extractStep3,
              firstAcceptedCandidate, hm1, hm2, hm3, hc1, hc2]
          | some sp3 =>
            cases hc3 : cleanupCandidateName sp3 <;>
              simp [extractIntestatario, extractStep2, extractStep3,
                firstAcceptedCandidate, hm1, hm2, hm3, hc1, hc2, hc3]
        | some c2 =>
          simp [extractIntestatario, extractStep2, extractStep3,
            firstAcceptedCandidate, hm1, hm2, hc1, hc2]
    | some c1 =>
      simp [extractIntestatario, firstAcceptedCandidate, hm1, hc1]

/-! C5 — the Merge Engine concatenates pages in member order. -/

theorem mergeDocs_go {α : Type} (docs : List (List α)) (acc : List α) :
    docs.foldl (fun merged doc => merged ++ copyAllPages doc) acc =
      acc ++ docs.flatten := by
  induction docs generalizing acc with
  | nil => simp
  | cons d ds ih =>
    rw [List.foldl_cons, ih]
    simp [copyAllPages, List.append_assoc]

/-- Claim C5: the merged output is exactly the concatenation of the
members' page lists in member order (each member's pages in original
intra-document order), its page count is the sum of the members' page
counts, and zero-page members contribute nothing. -/
theorem claim_C5 {α : Type} (docs xs ys : List (List α)) :
    mergeDocs docs = docs.flatten ∧
    (mergeDocs docs).length = (docs.map List.length).sum ∧
    mergeDocs (xs ++ [] :: ys) = mergeDocs (xs ++ ys) := by
  refine ⟨mergeDocs_go docs [], ?_, ?_⟩
  · rw [mergeDocs, mergeDocs_go docs []]
    simp
  · rw [mergeDocs, mergeDocs, mergeDocs_go, mergeDocs_go]
    simp

/-! C6 — the Candidate Sanitizer's acceptance guarantees. -/

/-- Claim C6: an accepted candidate is never shorter than 4 characters and
never consists solely of digits, whitespace, slashes, dots and hyphens. -/
theorem claim_C6 (raw s : String) (h : cleanupCandidateName raw = some s) :
    4 ≤ s.length ∧ s.data.all refLikeChar = false := by
  unfold cleanupCandidateName at h
  simp only at h
  split at h
  · exact absurd h (by simp)
  · next hlen =>
    split at h
    · exact absurd h (by simp)
    · next hrej =>
      obtain rfl : s = ⟨stopWords.foldl stopTrunc (safeNameL raw.data)⟩ :=
        (Option.some.inj h).symm
      rw [stringMk_length]
      refine ⟨by omega, ?_⟩
      by_contra hall
      apply hrej
      refine ⟨?_, by revert hall; simp⟩
      intro hnil
      rw [hnil] at hlen
      simp at hlen

/-- Witness for C6 at a concrete accepted candidate. -/
theorem claim_C6_witness :
    4 ≤ ("Mario Rossi" : String).length ∧
      ("Mario Rossi" : String).data.all refLikeChar = false :=
  claim_C6 "Mario Rossi" "Mario Rossi" rfl

/-! C8 — preference order of the output base filename. -/

/-- Claim C8: the output base filename prefers, in order, identifier +
reference number + addressee name when both metadata fields are present
(client-side variant), identifier + addressee name when only the name is
present, the sanitized addressee name alone in the single-file legacy mode
(express variant), and the bare identifier when no metadata is recoverable
(both variants).  "Present" requires the sanitized component to be
non-empty, matching the `filter(Boolean)` of the source. -/
theorem claim_C8 (gid r n : String) (hg : gid ≠ "")
    (hr : (⟨replaceFirstChar r.data '/' '-'⟩ : String) ≠ "")
    (hn : safeFilenamePart n ≠ "") :
    clientBaseFilename gid (some r) (some n) =
      gid ++ " - " ++ (⟨replaceFirstChar r.data '/' '-'⟩ : String) ++ " - " ++
        safeFilenamePart n ++ ".pdf" ∧
    clientBaseFilename gid none (some n) =
      gid ++ " - " ++ safeFilenamePart n ++ ".pdf" ∧
    expressBaseName (some n) gid = safePdfFileName n ∧
    clientBaseFilename gid none none = gid ++ ".pdf" ∧
    expressBaseName none gid = gid := by
  unfold clientBaseFilename jsTruthyFilter expressBaseName
  refine ⟨?_, ?_, rfl, ?_, rfl⟩
  · simp [List.filterMap, hg, hr, hn, joinDashParts, String.append_assoc]
  · simp [List.filterMap, hg, hn, joinDashParts, String.append_assoc]
  · simp [List.filterMap, hg, joinDashParts]

/-- Witness for C8 at concrete metadata values. -/
theorem claim_C8_witness :
    clientBaseFilename "25-02049" (some "25/02049") (some "Dr Mario Rossi") =
      "25-02049" ++ " - " ++ (⟨replaceFirstChar "25/02049".data '/' '-'⟩ : String) ++
        " - " ++ safeFilenamePart "Dr Mario Rossi" ++ ".pdf" ∧
    clientBaseFilename "25-02049" none (some "Dr Mario Rossi") =
      "25-02049" ++ " - " ++ safeFilenamePart "Dr Mario Rossi" ++ ".pdf" ∧
    expressBaseName (some "Dr Mario Rossi") "25-02049" =
      safePdfFileName "Dr Mario Rossi" ∧
    clientBaseFilename "25-02049" none none = "25-02049" ++ ".pdf" ∧
    expressBaseName none "25-02049" = "25-02049" :=
  claim_C8 "25-02049" "25/02049" "Dr Mario Rossi" (by decide) (by decide) (by decide)

/-! C10 — the addressee component of an output filename.

The two mechanisms the claim cites are real: `safePdfFileName` falls back
to `"Documento"` when cleaning empties the name, and the serverless
`intestatario` defaults to `"Documento"` when no heuristic matches.  The
headline is nevertheless false for the serverless variant: a heuristic
match whose characters are all filename-illegal (for instance
`"Intestatario: ???"`) is *not* the default, and `safeName` then erases it
inside the filename template, leaving an empty addressee component. -/

/-- Counterexample to C10 as stated: on the text `"Intestatario: ???"` the
serverless heuristic matches `"???"`, the filename sanitizer erases it, and
the produced output filename `"11-1111 - 11-1111 - .pdf"` has an empty
addressee component. -/
theorem claim_C10_counterexample :
    svIntestatario "Intestatario: ???" = "???" ∧
    safeName "???" = "" ∧
    serverlessHandler
      [⟨"11-1111.pdf", some "Intestatario: ???", some [1]⟩,
       ⟨"11-1111_Allegato1.pdf", some "", some [2]⟩] =
      .ok [("11-1111 - 11-1111 - .pdf", [1, 2])] :=
  ⟨rfl, rfl, rfl⟩

/-- Claim C10, amended: the express sanitizer `safePdfFileName` never
returns the empty string (falling back to `"Documento"`), and the
serverless variant defaults the addressee to `"Documento"` when no
heuristic matches; but a serverless heuristic match consisting only of
filename-illegal characters is sanitized to an empty addressee component
inside the output filename. -/
theorem claim_C10_amended :
    (∀ s : String, safePdfFileName s ≠ "") ∧
    (∀ t : String, m1sv t = none → mdrMatch t = none →
      svIntestatario t = "Documento") := by
  constructor
  · intro s
    by_cases hc : (safeName s).length = 0
    · simp [safePdfFileName, hc]
    · simp [safePdfFileName, hc]
      intro h
      apply hc
      rw [h]
      rfl
  · intro t h1 h2
    unfold svIntestatario
    rw [h1, h2]

/-- Witness for C10 (amended) at concrete inputs. -/
theorem claim_C10_witness :
    safePdfFileName "???" ≠ "" ∧ svIntestatario "xyz" = "Documento" :=
  ⟨claim_C10_amended.1 "???", claim_C10_amended.2 "xyz" rfl rfl⟩

/-! C1 — a ParseError while loading or merging a group. -/

/-- Counterexample to C1 as stated: a batch with two complete groups where
one attachment fails to load.  The whole request answers the 500 error;
the other complete group's output (shown to merge fine on its own in the
second conjunct) is not delivered, although the claim promises that only
the failing group is dropped while the request succeeds. -/
theorem claim_C1_counterexample :
    serverlessHandler
      [⟨"11-1111.pdf", some "x", some [1, 2, 3]⟩,
       ⟨"11-1111_Allegato1.pdf", some "", some [4, 5]⟩,
       ⟨"22-2222.pdf", some "x", some [6]⟩,
       ⟨"22-2222_Allegato1.pdf", some "", none⟩] =
      .error "Errore durante il merge PDF" ∧
    serverlessHandler
      [⟨"11-1111.pdf", some "x", some [1, 2, 3]⟩,
       ⟨"11-1111_Allegato1.pdf", some "", some [4, 5]⟩] =
      .ok [("11-1111 - 11-1111 - Documento.pdf", [1, 2, 3, 4, 5])] :=
  ⟨rfl, rfl⟩

/-- Claim C1, amended: when loading the text of, or loading/merging, the
documents of any complete group raises a ParseError, the whole request
fails with the request-level 500 error; no other group's output is
delivered. -/
theorem claim_C1_amended (files : List PdfFile) (g : String × List PdfFile)
    (hg : g ∈ buildGroupsSv files) (hc : 2 ≤ g.2.length)
    (hbad : groupBadSv g = true) :
    ∃ e, serverlessHandler files = .error e := by
  unfold serverlessHandler
  split
  · exact ⟨_, rfl⟩
  · exact processGroupsSv_error _ _ _ ⟨g, hg, hc, hbad⟩

/-- Witness for the amended C1 at the concrete failing batch. -/
theorem claim_C1_witness :
    ∃ e, serverlessHandler
      [⟨"11-1111.pdf", some "x", some [1, 2, 3]⟩,
       ⟨"11-1111_Allegato1.pdf", some "", some [4, 5]⟩,
       ⟨"22-2222.pdf", some "x", some [6]⟩,
       ⟨"22-2222_Allegato1.pdf", some "", none⟩] = .error e :=
  claim_C1_amended _
    ("22-2222", [⟨"22-2222.pdf", some "x", some [6]⟩,
                 ⟨"22-2222_Allegato1.pdf", some "", none⟩])
    (by decide) (by decide) (by decide)

/-! C2 — the request-level error condition. -/

/-- Claim C2: when every uploaded file parses and loads, the serverless
request fails with a request-level error exactly when zero groups are
complete (equivalently, zero groups merge); documents without an
identifier and incomplete groups are excluded silently and never by
themselves fail the request. -/
theorem claim_C2 (files : List PdfFile)
    (H : ∀ f ∈ files, f.parseText.isSome ∧ f.loadPages.isSome) :
    (∃ e, serverlessHandler files = .error e) ↔
      (buildGroupsSv files).countP (fun g => decide (2 ≤ g.2.length)) = 0 := by
  rw [List.countP_eq_zero]
  constructor
  · rintro ⟨e, he⟩ g hg
    simp only [decide_eq_true_eq]
    intro hcomp
    unfold serverlessHandler at he
    split at he
    · next hlt =>
      have hfacts := mem_buildGroupsSv_facts files g hg
      have hle := hfacts.2
      omega
    · next hlt =>
      have hsafe : ∀ g2 ∈ buildGroupsSv files, ∀ f ∈ g2.2,
          f.parseText.isSome ∧ f.loadPages.isSome := by
        intro g2 hg2 f hf
        have hfacts := mem_buildGroupsSv_facts files g2 hg2
        rw [hfacts.1] at hf
        exact H f (List.mem_of_mem_filter hf)
      obtain ⟨outs, houts⟩ := processGroupsSv_ok _ [] 0 hsafe (.inr ⟨g, hg, hcomp⟩)
      rw [houts] at he
      cases he
  · intro hall
    unfold serverlessHandler
    split
    · exact ⟨_, rfl⟩
    · refine ⟨"Nessuna coppia valida trovata", ?_⟩
      rw [processGroupsSv_skip]
      · simp
      · intro g hg
        have := hall g hg
        simp only [decide_eq_true_eq] at this
        omega

/-- Witness for C2 at a concrete complete pair. -/
theorem claim_C2_witness :
    (∃ e, serverlessHandler
        [⟨"25-02050.pdf", some "x", some [1]⟩,
         ⟨"25-02050_Allegato1.pdf", some "", some [2]⟩] = .error e) ↔
      (buildGroupsSv
        [⟨"25-02050.pdf", some "x", some [1]⟩,
         ⟨"25-02050_Allegato1.pdf", some "", some [2]⟩]).countP
          (fun g => decide (2 ≤ g.2.length)) = 0 :=
  claim_C2 _ (by decide)

/-! C3 — distinct output filenames via the numeric-suffix resolver. -/

/-- Claim C3: the filenames of the outputs of one express batch are
pairwise distinct; a base name whose `.pdf` form is still free is used
as-is, and a colliding base name receives the numeric suffix starting at 2
and incrementing until unique (every smaller suffix being taken). -/
theorem claim_C3 :
    (∀ (files : List ExFile) (outs : List (String × List Nat)),
       expressHandler files = .ok outs → (outs.map Prod.fst).Nodup) ∧
    (∀ (zip : List (String × List Nat)) (base : String),
       zipHasName zip (base ++ ".pdf") = false →
         resolveName zip base = base ++ ".pdf") ∧
    (∀ (zip : List (String × List Nat)) (base : String),
       zipHasName zip (base ++ ".pdf") = true →
         ∃ k, 2 ≤ k ∧ resolveName zip base = suffixName base k ∧
           zipHasName zip (suffixName base k) = false ∧
           ∀ j, 2 ≤ j → j < k → zipHasName zip (suffixName base j) = true) := by
  refine ⟨?_, fun zip base => (resolveName_spec zip base).1,
    fun zip base => (resolveName_spec zip base).2⟩
  intro files outs h
  unfold expressHandler at h
  split at h
  · cases h
  · exact processGroupsEx_nodup _ _ _ _ h (by simp)

/-- Witness for C3: a batch with two groups both named "Mario Rossi", and
a resolver call on a taken base name. -/
theorem claim_C3_witness :
    (([("Mario Rossi.pdf", ([1, 2] : List Nat)),
       ("Mario Rossi_2.pdf", [3, 4])].map Prod.fst).Nodup) ∧
    (∃ k, 2 ≤ k ∧
      resolveName [("Mario Rossi.pdf", [1])] "Mario Rossi" =
        suffixName "Mario Rossi" k ∧
      zipHasName [("Mario Rossi.pdf", [1])] (suffixName "Mario Rossi" k) = false ∧
      ∀ j, 2 ≤ j → j < k →
        zipHasName [("Mario Rossi.pdf", [1])] (suffixName "Mario Rossi" j) = true) :=
  ⟨claim_C3.1
    [⟨"11-1111.pdf", some "Mario Rossi", some [1]⟩,
     ⟨"11-1111_Allegato1.pdf", none, some [2]⟩,
     ⟨"22-2222.pdf", some "Mario Rossi", some [3]⟩,
     ⟨"22-2222_Allegato1.pdf", none, some [4]⟩] _ rfl,
   claim_C3.2.2 [("Mario Rossi.pdf", [1])] "Mario Rossi" rfl⟩

/-! C9 — one main slot and one attachment slot per express group. -/

/-- Claim C9: in the single-backend variant each group holds at most one
main and at most one attachment: the group record of an identifier is
exactly the pair of the *last* uploaded non-attachment file and the *last*
uploaded attachment file with that identifier (later files silently
replace earlier ones in their role slot), and every merged output is built
from exactly the two uploaded documents filling the two slots of its
group. -/
theorem claim_C9 (files : List ExFile) (id : String) :
    (lookupAssoc (buildGroupsEx files) id =
      (if files.any (exMatches id) then
        some ⟨lastMainFor files id, lastAllegFor files id⟩
       else none)) ∧
    (∀ outs, expressHandler files = .ok outs →
      ∀ o ∈ outs, ∃ gid mainF allegF mp ap,
        mainF ∈ files ∧ allegF ∈ files ∧
        lookupAssoc (buildGroupsEx files) gid =
          some ⟨some mainF, some allegF⟩ ∧
        mainF.loadPages = some mp ∧ allegF.loadPages = some ap ∧
        o.2 = mp ++ ap) := by
  refine ⟨lookup_buildGroupsEx files id, ?_⟩
  intro outs houts o ho
  unfold expressHandler at houts
  split at houts
  · cases houts
  · have hmem := processGroupsEx_outs _ _ _ _ houts o ho
    rcases hmem with hzip | ⟨gid, mainF, allegF, mp, ap, hgmem, hmp, hap, hpages⟩
    · simp at hzip
    · have hlook := lookup_of_mem_nodupKeys _ (keysNodup_buildGroupsEx files) _ hgmem
      have hchar := lookup_buildGroupsEx files gid
      rw [hlook] at hchar
      split at hchar
      · have hslots := Option.some.inj hchar
        have hmain : lastMainFor files gid = some mainF :=
          (congrArg ExSlots.main hslots).symm
        have halleg : lastAllegFor files gid = some allegF :=
          (congrArg ExSlots.allegato hslots).symm
        refine ⟨gid, mainF, allegF, mp, ap, ?_, ?_, hlook, hmp, hap, hpages⟩
        · exact List.mem_of_mem_filter (List.mem_of_getLast?_eq_some hmain)
        · exact List.mem_of_mem_filter (List.mem_of_getLast?_eq_some halleg)
      · cases hchar

/-- Witness for C9: the second main file replaces the first in its slot,
and the single output is built from the surviving main and the attachment. -/
theorem claim_C9_witness :
    (lookupAssoc (buildGroupsEx
        [⟨"11-1111.pdf", some "Mario Rossi", some [1]⟩,
         ⟨"11-1111 bis.pdf", none, some [9]⟩,
         ⟨"11-1111_Allegato1.pdf", none, some [2]⟩]) "11-1111" =
      (if ([⟨"11-1111.pdf", some "Mario Rossi", some [1]⟩,
            ⟨"11-1111 bis.pdf", none, some [9]⟩,
            ⟨"11-1111_Allegato1.pdf", none, some [2]⟩] : List ExFile).any
          (exMatches "11-1111") then
        some ⟨lastMainFor
                [⟨"11-1111.pdf", some "Mario Rossi", some [1]⟩,
                 ⟨"11-1111 bis.pdf", none, some [9]⟩,
                 ⟨"11-1111_Allegato1.pdf", none, some [2]⟩] "11-1111",
              lastAllegFor
                [⟨"11-1111.pdf", some "Mario Rossi", some [1]⟩,
                 ⟨"11-1111 bis.pdf", none, some [9]⟩,
                 ⟨"11-1111_Allegato1.pdf", none, some [2]⟩] "11-1111"⟩
       else none)) ∧
    (∃ gid mainF allegF mp ap,
      mainF ∈ ([⟨"11-1111.pdf", some "Mario Rossi", some [1]⟩,
                ⟨"11-1111 bis.pdf", none, some [9]⟩,
                ⟨"11-1111_Allegato1.pdf", none, some [2]⟩] : List ExFile) ∧
      allegF ∈ ([⟨"11-1111.pdf", some "Mario Rossi", some [1]⟩,
                 ⟨"11-1111 bis.pdf", none, some [9]⟩,
                 ⟨"11-1111_Allegato1.pdf", none, some [2]⟩] : List ExFile) ∧
      lookupAssoc (buildGroupsEx
        [⟨"11-1111.pdf", some "Mario Rossi", some [1]⟩,
         ⟨"11-1111 bis.pdf", none, some [9]⟩,
         ⟨"11-1111_Allegato1.pdf", none, some [2]⟩]) gid =
        some ⟨some mainF, some allegF⟩ ∧
      mainF.loadPages = some mp ∧ allegF.loadPages = some ap ∧
      (("11-1111.pdf", [9, 2]) : String × List Nat).2 = mp ++ ap) :=
  ⟨(claim_C9 _ "11-1111").1,
   (claim_C9
      [⟨"11-1111.pdf", some "Mario Rossi", some [1]⟩,
       ⟨"11-1111 bis.pdf", none, some [9]⟩,
       ⟨"11-1111_Allegato1.pdf", none, some [2]⟩] "11-1111").2
     [("11-1111.pdf", [9, 2])] rfl
     ("11-1111.pdf", [9, 2]) (List.mem_singleton.mpr rfl)⟩

/-! C7 — the resolved member order. -/

/-- Counterexample to C7 as stated: the serverless handler's resolved
order puts "Allegato10" before "Allegato2" (case-insensitive lexical
comparison of the whole names), violating the claimed
ordering-by-explicit-attachment-index, which demands index 2 before 10. -/
theorem claim_C7_counterexample :
    ¬ List.Pairwise (fun a b => claimedOrder a b = true)
      (serverSortNames ["25-02049_Allegato10.pdf", "25-02049_Allegato2.pdf"]) := by
  intro hp
  have hp2 : List.Pairwise (fun a b => claimedOrder a b = true)
      ["25-02049_Allegato10.pdf", "25-02049_Allegato2.pdf"] := hp
  have h := List.rel_of_pairwise_cons hp2 (List.mem_cons_self _ _)
  exact absurd h (by decide)

/-- Claim C7, amended: the client-side `orderGroupFiles` realizes exactly
the claimed order (mains before attachments, mains tie-broken by
case-insensitive lexical order, attachments by explicit attachment index
and then lexically); the serverless variant realizes only the weaker
marker-then-lexical order, ignoring attachment indices. -/
theorem claim_C7_amended (fs : List String) :
    List.Pairwise (fun a b => claimedOrder a b = true)
      (orderGroupFilesNames fs) ∧
    List.Pairwise (fun a b => serverMarkerLexOrder a b = true)
      (serverSortNames fs) := by
  constructor
  · have hp := pairwise_jsSortByCmp ogfCmp ogfLe_trans ogfLe_total fs
    exact List.Pairwise.imp (fun hab => ogfLe_claimedOrder _ _ hab) hp
  · have hp := pairwise_jsSortByCmp handlerCmp handlerLe_trans handlerLe_total fs
    exact List.Pairwise.imp (fun hab => handlerLe_markerLexOrder _ _ hab) hp

end PDFMerger
